import Mathlib

/-!
Verification development for a whole-project symbol and dependency analyzer.

The definitions below are a shallow embedding of the analyzer core:
the project symbol table (`src/lang/SymbolTable.ts`), the project driver
(`src/lang/ProjectAnalyzer.ts`), the per-file dependency resolver
(`src/lang/extractSymbols/index.ts`), and the reporter
(`src/bin/ts-inspect/TreeShakingReporter.ts`).

Modelling conventions:
- A JavaScript `Set<string>` preserves insertion order and deduplicates;
  it is modelled as a `List String` built with `lsInsert`.
- A JavaScript `Map<string, V>` preserves key insertion order, `set` on an
  existing key keeps its position; it is modelled as an association list
  (`SMap`) with `smapSet` / `smapGet`.
- The TypeScript type checker is an external oracle (spec section 6.1);
  identifier resolution is modelled as a finite map from identifier text to
  the resolved declaration (its syntactic kind and owning file name).
- The wall clock read by the JSON reporter (`new Date().toISOString()`) is
  modelled as an explicit `timestamp` argument.
-/

set_option maxHeartbeats 1000000

/-- Insertion into a JavaScript `Set`: append at the end unless present. -/
def lsInsert (s : List String) (x : String) : List String :=
  if x ∈ s then s else s ++ [x]

/-- Association-list model of a JavaScript `Map<string, α>`. -/
abbrev SMap (α : Type) : Type := List (String × α)

/-- Lookup, mirroring `Map.get`. -/
def smapGet {α : Type} (m : SMap α) (k : String) : Option α :=
  (m.find? (fun p => p.1 == k)).map (fun p => p.2)

/-- Update, mirroring `Map.set`: replace in place if the key exists (keys of
a `Map` are unique, so replacing the first occurrence is replacing the
occurrence), else append at the end. -/
def smapSet {α : Type} (m : SMap α) (k : String) (v : α) : SMap α :=
  match m with
  | [] => [(k, v)]
  | p :: rest => if p.1 = k then (k, v) :: rest else p :: smapSet rest k v

/-- Keys of the map in insertion order, mirroring `Map.keys()`. -/
def smapKeys {α : Type} (m : SMap α) : List String :=
  m.map (fun p => p.1)

/-- Values of the map in insertion order, mirroring `Map.values()`. -/
def smapValues {α : Type} (m : SMap α) : List α :=
  m.map (fun p => p.2)

/-- Number of entries, mirroring `Map.size`. -/
def smapSize {α : Type} (m : SMap α) : Nat :=
  m.length

/-- Split a character list at every occurrence of a separator character. -/
def splitOnChar (sep : Char) : List Char → List (List Char)
  | [] => [[]]
  | c :: cs =>
    match splitOnChar sep cs with
    | [] => if c = sep then [[], []] else [[c]]
    | h :: t => if c = sep then [] :: h :: t else (c :: h) :: t

/-- Split a string at a separator character (model of `String.prototype.split`). -/
def strSplit (s : String) (sep : Char) : List String :=
  (splitOnChar sep s.data).map (fun l => String.mk l)

/-- Whether `pat` is an initial segment of `s`. -/
def charsPre : List Char → List Char → Bool
  | [], _ => true
  | _ :: _, [] => false
  | p :: ps, c :: cs => p = c && charsPre ps cs

/-- Whether `pat` occurs as a contiguous substring of `s`. -/
def charsContains (s pat : List Char) : Bool :=
  match s with
  | [] => charsPre pat []
  | _ :: cs => charsPre pat s || charsContains cs pat

/-- Model of `String.prototype.includes`. -/
def strContains (s pat : String) : Bool :=
  charsContains s.data pat.data

/-- Model of `String.prototype.startsWith`. -/
def strStartsWith (s pre : String) : Bool :=
  charsPre pre.data s.data

/-- Lexicographic comparison of character lists (model of the default
JavaScript string sort order). -/
def charsLe : List Char → List Char → Bool
  | [], _ => true
  | _ :: _, [] => false
  | a :: as, b :: bs => if a = b then charsLe as bs else decide (a < b)

/-- Insertion of a string into a sorted list. -/
def sortedInsertStr (x : String) : List String → List String
  | [] => [x]
  | y :: ys => if charsLe x.data y.data then x :: y :: ys else y :: sortedInsertStr x ys

/-- Insertion sort on strings (model of `Array.prototype.sort()`). -/
def sortStrings (l : List String) : List String :=
  l.foldr sortedInsertStr []

/-- Last path component (model of `path.basename`; the inputs used here never
carry a trailing slash). -/
def basename (p : String) : String :=
  ((strSplit p '/').getLast?).getD p

/-- Directory part of a path (model of `path.dirname` for the inputs used
here: no trailing slash, `.` for a bare file name). -/
def dirname (p : String) : String :=
  match (strSplit p '/').dropLast with
  | [] => "."
  | [""] => "/"
  | parts => String.intercalate ("/") parts

/-- Model of `path.resolve(base, rel)`: join against a fixed process working
directory and normalize `.` and `..` segments. Only its basename is ever
observed, so the choice of working directory is immaterial. -/
def pathResolve (base rel : String) : String :=
  let segs := (strSplit ("/cwd/" ++ base ++ "/" ++ rel) '/').foldl
    (fun acc s =>
      if s = "" ∨ s = "." then acc
      else if s = ".." then acc.dropLast
      else acc ++ [s]) []
  "/" ++ String.intercalate ("/") segs

/-- From `src/lang/extractSymbols/index.ts`: a relative module specifier is
resolved against the importing file's directory and reduced to its final
path component; bare specifiers pass through unchanged. -/
def resolveRelativePath (fromPath toPath : String) : String :=
  if strStartsWith toPath (".") then
    basename (pathResolve (dirname fromPath) toPath)
  else toPath

/-- Symbol record from `src/lang/SymbolTable.ts` (`SymbolInfo`). The
display-only fields (`kind`, `type`, `declaration`, `documentation`,
`sourceLocation`), which no claim observes, are omitted. -/
structure SymbolInfo where
  name : String
  fileName : String
  isExported : Bool
  dependencies : List String
  dependents : List String
deriving DecidableEq

/-- Import record from `src/lang/extractSymbols/index.ts` (`ImportInfo`):
a default import carries no `originalName` field, modelled as `none`. -/
structure ImportInfo where
  name : String
  fromModule : String
  isDefault : Bool
  originalName : Option String
deriving DecidableEq

/-- Per-file extraction result (`ExtractedSymbols`). -/
structure ExtractedSymbols where
  exports : SMap SymbolInfo
  internal : SMap SymbolInfo
  imports : SMap ImportInfo
deriving DecidableEq

/-- File-level grouping (`FileSymbols`). -/
structure FileSymbols where
  fileName : String
  symbols : ExtractedSymbols
deriving DecidableEq

/-- Project table state (`ProjectSymbolTableState`). -/
structure ProjectSymbolTableState where
  fileSymbols : SMap FileSymbols
  globalSymbols : SMap SymbolInfo
  dependencies : SMap (List String)
  reverseDependencies : SMap (List String)
deriving DecidableEq

/-- From `createProjectSymbolTable`: the empty table. -/
def createProjectSymbolTable : ProjectSymbolTableState :=
  { fileSymbols := [], globalSymbols := [], dependencies := [], reverseDependencies := [] }

/-- One iteration of the `forEach` body inside `addFileSymbols`: register the
symbol under `<fileName>:<name>`, record its forward edges, and add it as a
dependent of each of its dependencies. -/
def insertSymbolEntry (fileName : String) (st : ProjectSymbolTableState)
    (symbol : SymbolInfo) : ProjectSymbolTableState :=
  let fullName := fileName ++ (":") ++ symbol.name
  { fileSymbols := st.fileSymbols
    globalSymbols := smapSet st.globalSymbols fullName symbol
    dependencies := smapSet st.dependencies fullName symbol.dependencies
    reverseDependencies :=
      symbol.dependencies.foldl
        (fun rd dep => smapSet rd dep (lsInsert ((smapGet rd dep).getD []) fullName))
        st.reverseDependencies }

/-- The symbols a file contributes, in the order `addFileSymbols` walks them
(export values, then internal values). -/
def symbolsOfFile (fs : FileSymbols) : List SymbolInfo :=
  smapValues fs.symbols.exports ++ smapValues fs.symbols.internal

/-- From `src/lang/SymbolTable.ts` (`addFileSymbols`): record the file, then
fold every exported and internal symbol into the global table and the edge
maps. There is no duplicate-id check. -/
def addFileSymbols (st : ProjectSymbolTableState) (fs : FileSymbols) :
    ProjectSymbolTableState :=
  (symbolsOfFile fs).foldl (insertSymbolEntry fs.fileName)
    { st with fileSymbols := smapSet st.fileSymbols fs.fileName fs }

/-- From `getSymbol`. -/
def getSymbol (st : ProjectSymbolTableState) (symbolName : String) : Option SymbolInfo :=
  smapGet st.globalSymbols symbolName

/-- From `getDependencies`: the stored forward-edge set, or empty. -/
def getDependencies (st : ProjectSymbolTableState) (symbolName : String) : List String :=
  (smapGet st.dependencies symbolName).getD []

/-- From `getDependents`: the stored reverse-edge set, or empty. -/
def getDependents (st : ProjectSymbolTableState) (symbolName : String) : List String :=
  (smapGet st.reverseDependencies symbolName).getD []

/-- From `getAllFiles` (renamed: the plain name is taken by the ambient
library). -/
def getAllProjectFiles (st : ProjectSymbolTableState) : List String :=
  smapKeys st.fileSymbols

/-- From `getFileSymbols`. -/
def getFileSymbols (st : ProjectSymbolTableState) (fileName : String) : Option FileSymbols :=
  smapGet st.fileSymbols fileName

/-- The worklist loop of `calculateClosure`: dequeue, skip if visited,
otherwise mark visited, add to the closure, and enqueue the unvisited
dependencies. The loop in the source runs until the queue is empty; the
`fuel` argument is a step bound large enough for that point to be reached
(see `closureFuel`). -/
def calculateClosureAux (deps : String → List String) :
    Nat → List String → List String → List String → List String
  | 0, _, closure, _ => closure
  | _ + 1, _, closure, [] => closure
  | fuel + 1, visited, closure, current :: rest =>
    if current ∈ visited then
      calculateClosureAux deps fuel visited closure rest
    else
      let visited2 := lsInsert visited current
      let closure2 := lsInsert closure current
      calculateClosureAux deps fuel visited2 closure2
        (rest ++ (deps current).filter (fun d => decide (d ∉ visited2)))

/-- A step bound sufficient for the worklist of `calculateClosure` to drain:
one step per root plus one per stored edge, plus one. -/
def closureFuel (st : ProjectSymbolTableState) (rootSymbols : List String) : Nat :=
  rootSymbols.length + ((st.dependencies.map (fun kv => kv.2.length)).sum + 1)

/-- From `src/lang/SymbolTable.ts` (`calculateClosure`), identical logic in
`src/lang/createProjectSymbolTable/calculateClosure.ts`: breadth-first
closure of the forward edges from the given roots. -/
def calculateClosure (st : ProjectSymbolTableState) (rootSymbols : List String) :
    List String :=
  calculateClosureAux (getDependencies st) (closureFuel st rootSymbols) [] [] rootSymbols

/-- From `findUnusedSymbols`: all registered symbols outside the closure of
the given roots. -/
def findUnusedSymbols (st : ProjectSymbolTableState) (exportedSymbols : List String) :
    List String :=
  let usedSymbols := calculateClosure st exportedSymbols
  (smapKeys st.globalSymbols).foldl
    (fun acc s => if s ∈ usedSymbols then acc else lsInsert acc s) []

/-- From `src/lang/ProjectAnalyzer.ts` (`analyzeProject`): fold every file's
extraction result into the table. Extraction itself is performed by
`extractSymbolsFromFile`; here the per-file `FileSymbols` records are the
input, produced by the extractor embedding below for the concrete scenarios. -/
def analyzeProject (files : List FileSymbols) : ProjectSymbolTableState :=
  files.foldl addFileSymbols createProjectSymbolTable

/-- From `groupSymbolsByFile`: split each id on the colon, keep the first two
parts when both are non-empty, and group the local names by file. -/
def groupSymbolsByFile (symbols : List String) : SMap (List String) :=
  symbols.foldl
    (fun result symbolName =>
      match strSplit symbolName ':' with
      | fileName :: localName :: _ =>
        if fileName = "" ∨ localName = "" then result
        else smapSet result fileName (((smapGet result fileName).getD []) ++ [localName])
      | _ => result) []

/-- Statistics record (`TreeShakingStatistics`). The removal rate, a
floating-point percentage in the source rounded to two decimals via
`Math.round(rate * 100) / 100`, is stored here exactly as hundredths of a
percent. -/
structure TreeShakingStatistics where
  totalSymbols : Nat
  includedSymbols : Nat
  unusedSymbols : Nat
  removalRateCenti : Nat
deriving DecidableEq

/-- From `calculateStatistics`. `(20000 * u + t) / (2 * t)` is
`Math.round(10000 * u / t)`, i.e. the removal percentage in hundredths. -/
def calculateStatistics (st : ProjectSymbolTableState)
    (includedSymbols unusedSymbols : List String) : TreeShakingStatistics :=
  let totalSymbols := smapSize st.globalSymbols
  let includedCount := includedSymbols.length
  let unusedCount := unusedSymbols.length
  { totalSymbols := totalSymbols
    includedSymbols := includedCount
    unusedSymbols := unusedCount
    removalRateCenti :=
      if totalSymbols = 0 then 0
      else (20000 * unusedCount + totalSymbols) / (2 * totalSymbols) }

/-- Result record (`TreeShakingResult`). -/
structure TreeShakingResult where
  entryPoints : List String
  includedSymbols : List String
  unusedSymbols : List String
  includedByFile : SMap (List String)
  unusedByFile : SMap (List String)
  symbolTable : ProjectSymbolTableState
  statistics : TreeShakingStatistics
deriving DecidableEq

/-- From `src/lang/ProjectAnalyzer.ts` (`performTreeShaking`): analyze the
project, take the forward closure of the entry points, subtract it from the
registered symbols, group, and tally. -/
def performTreeShaking (files : List FileSymbols) (entryPoints : List String) :
    TreeShakingResult :=
  let symbolTable := analyzeProject files
  let includedSymbols := calculateClosure symbolTable entryPoints
  let unusedSymbols := findUnusedSymbols symbolTable includedSymbols
  { entryPoints := entryPoints
    includedSymbols := includedSymbols
    unusedSymbols := unusedSymbols
    includedByFile := groupSymbolsByFile includedSymbols
    unusedByFile := groupSymbolsByFile unusedSymbols
    symbolTable := symbolTable
    statistics := calculateStatistics symbolTable includedSymbols unusedSymbols }

/-- Decimal digits of a natural number (fuel-based, most significant first). -/
def natDigitsAux : Nat → Nat → List Char
  | 0, _ => []
  | fuel + 1, n =>
    if n < 10 then [Char.ofNat (48 + n)]
    else natDigitsAux fuel (n / 10) ++ [Char.ofNat (48 + n % 10)]

/-- Decimal rendering of a natural number (matches how a non-negative
integral JavaScript number prints). -/
def natStr (n : Nat) : String :=
  String.mk (natDigitsAux (n + 1) n)

/-- How a JavaScript number equal to `centi / 100` prints: trailing zeros of
the fraction are dropped, an integral value prints with no point. -/
def renderRate (centi : Nat) : String :=
  if centi % 100 = 0 then natStr (centi / 100)
  else if centi % 10 = 0 then natStr (centi / 100) ++ (".") ++ natStr ((centi % 100) / 10)
  else if centi % 100 < 10 then natStr (centi / 100) ++ (".0") ++ natStr (centi % 100)
  else natStr (centi / 100) ++ (".") ++ natStr (centi % 100)

/-- Model of `(100 * u / t).toFixed(1)` for `t > 0`: round to tenths and
always print one fractional digit. -/
def toFixed1 (u t : Nat) : String :=
  let d10 := (2000 * u + t) / (2 * t)
  natStr (d10 / 10) ++ (".") ++ natStr (d10 % 10)

/-- JSON escaping of one character, as `JSON.stringify` performs on strings
(control characters beyond these are not exercised by any input here). -/
def jsonEscapeChar (c : Char) : String :=
  if c = '"' then "\\\""
  else if c = '\\' then "\\\\"
  else if c = '\n' then "\\n"
  else if c = '\t' then "\\t"
  else if c = '\r' then "\\r"
  else String.singleton c

/-- A JSON string literal. -/
def jsonStr (s : String) : String :=
  "\"" ++ String.join (s.data.map jsonEscapeChar) ++ "\""

/-- A JSON array of strings as `JSON.stringify(_, null, 2)` lays it out at
the nesting level whose key line is indented by `indent`. -/
def jsonStrArray (indent : String) (l : List String) : String :=
  match l with
  | [] => "[]"
  | _ =>
    "[\n" ++ String.intercalate (",\n") (l.map (fun s => indent ++ ("  ") ++ jsonStr s))
    ++ "\n" ++ indent ++ "]"

/-- One `fileAnalysis` entry of the JSON report, rendered. -/
def fileAnalysisEntry (result : TreeShakingResult) (fileName : String) : Option String :=
  match getFileSymbols result.symbolTable fileName with
  | none => none
  | some fileSyms =>
    let totalInFile := smapSize fileSyms.symbols.exports + smapSize fileSyms.symbols.internal
    let includedInFile := ((smapGet result.includedByFile fileName).getD []).length
    let unusedInFile := ((smapGet result.unusedByFile fileName).getD []).length
    let removalRate := if totalInFile = 0 then "0" else toFixed1 unusedInFile totalInFile
    some (("    ") ++ jsonStr fileName ++ (": \x7b\n      \"totalSymbols\": ")
      ++ natStr totalInFile ++ (",\n      \"includedSymbols\": ")
      ++ natStr includedInFile ++ (",\n      \"unusedSymbols\": ")
      ++ natStr unusedInFile ++ (",\n      \"removalRate\": ")
      ++ jsonStr removalRate ++ ("\n    \x7d"))

/-- From `src/bin/ts-inspect/TreeShakingReporter.ts` (`generateJSONReport`):
the report is built from the result and from `new Date().toISOString()`,
which is modelled as the explicit `timestamp` argument; the record is then
rendered as `JSON.stringify(report, null, 2)` lays it out. -/
def generateJSONReport (result : TreeShakingResult) (timestamp : String) : String :=
  let fileEntries := (getAllProjectFiles result.symbolTable).filterMap (fileAnalysisEntry result)
  let fileAnalysisStr :=
    match fileEntries with
    | [] => "\x7b\x7d"
    | _ => "\x7b\n" ++ String.intercalate (",\n") fileEntries ++ ("\n  \x7d")
  ("\x7b\n  \"timestamp\": ") ++ jsonStr timestamp
  ++ (",\n  \"entryPoints\": ") ++ jsonStrArray ("  ") result.entryPoints
  ++ (",\n  \"statistics\": \x7b\n    \"totalSymbols\": ")
  ++ natStr result.statistics.totalSymbols
  ++ (",\n    \"includedSymbols\": ") ++ natStr result.statistics.includedSymbols
  ++ (",\n    \"unusedSymbols\": ") ++ natStr result.statistics.unusedSymbols
  ++ (",\n    \"removalRate\": ") ++ renderRate result.statistics.removalRateCenti
  ++ ("\n  \x7d,\n  \"includedSymbols\": ") ++ jsonStrArray ("  ") result.includedSymbols
  ++ (",\n  \"unusedSymbols\": ") ++ jsonStrArray ("  ") result.unusedSymbols
  ++ (",\n  \"fileAnalysis\": ") ++ fileAnalysisStr
  ++ ("\n\x7d")

/-- A run of `n` copies of a character (model of `String.prototype.repeat`). -/
def repeatChar (c : Char) (n : Nat) : String :=
  String.mk (List.replicate n c)

/-- From `generateAdjacencyListReport`: for every included symbol that is
registered, emit its local name, its sorted dependency local names (or a
placeholder when empty), then a blank line; join everything with newlines.
Splitting an id without a colon yields `undefined` in the source, which
prints as the string `undefined`. -/
def generateAdjacencyListReport (result : TreeShakingResult) : String :=
  let header := [("依赖关系邻接表"), repeatChar '=' 80, ""]
  let body := result.includedSymbols.foldl
    (fun lines symbolName =>
      match getSymbol result.symbolTable symbolName with
      | none => lines
      | some symbolInfo =>
        let shortName := (strSplit symbolName ':').getD 1 ("undefined")
        let dependencies := sortStrings
          (symbolInfo.dependencies.map (fun dep => (strSplit dep ':').getD 1 ("undefined")))
        lines ++ [shortName ++ (":")]
        ++ (if dependencies.length > 0 then dependencies.map (fun dep => ("  - ") ++ dep)
            else [("  (无依赖)")])
        ++ [""]) header
  String.intercalate ("\n") body

/-- Impact record (`ImpactAnalysis`). -/
structure ImpactAnalysis where
  targetSymbol : String
  directDependents : List String
  allDependents : List String
  impactCount : Nat
deriving DecidableEq

/-- The recursive `collectDependents` of `calculateImpactAnalysis`: add the
symbol, then recurse into each of its not-yet-collected reverse edges. The
recursion in the source bottoms out through the visited check; `fuel` is a
depth bound large enough for that (see `impactFuel`). -/
def collectDependentsAux (st : ProjectSymbolTableState) :
    Nat → List String → String → List String
  | 0, allDependents, symbol => lsInsert allDependents symbol
  | fuel + 1, allDependents, symbol =>
    let acc := lsInsert allDependents symbol
    (getDependents st symbol).foldl
      (fun a dep => if dep ∈ a then a else collectDependentsAux st fuel a dep) acc

/-- A depth bound sufficient for `collectDependents`: one level per stored
reverse edge, plus one. -/
def impactFuel (st : ProjectSymbolTableState) : Nat :=
  ((st.reverseDependencies.map (fun kv => kv.2.length)).sum) + 1

/-- From `src/bin/ts-inspect/TreeShakingReporter.ts`
(`calculateImpactAnalysis`): the direct dependents are the stored reverse
edges of the id; `collectDependents` then gathers the reverse closure,
starting by adding the target id itself. -/
def calculateImpactAnalysis (symbolName : String) (st : ProjectSymbolTableState) :
    ImpactAnalysis :=
  let directDependents := getDependents st symbolName
  let allDependents := collectDependentsAux st (impactFuel st) [] symbolName
  { targetSymbol := symbolName
    directDependents := directDependents
    allDependents := allDependents
    impactCount := allDependents.length }

/-- Syntactic kind of a resolved declaration, as the type-checker predicates
`ts.isParameter`, `ts.isPropertySignature`, `ts.isPropertyDeclaration`,
`ts.isTypeAliasDeclaration`, `ts.isInterfaceDeclaration`,
`ts.isClassDeclaration` classify it. -/
inductive DeclKind where
  | varDecl
  | funcDecl
  | classDecl
  | interfaceDecl
  | typeAliasDecl
  | enumDecl
  | parameterDecl
  | propertySig
  | propertyDecl
  | typeParamDecl
deriving DecidableEq

/-- What `typeChecker.getSymbolAtLocation(n).declarations[0]` yields for an
identifier: its syntactic kind and the file of
`declaration.getSourceFile()`. -/
structure ResolvedDecl where
  kind : DeclKind
  fileName : String
deriving DecidableEq

/-- Options of `extractSymbolsFromFile` (`SymbolExtractionOptions`). -/
structure SymbolExtractionOptions where
  includeNodeModules : Bool
  includeSystemSymbols : Bool
deriving DecidableEq

/-- The defaults used by `analyzeSourceFile`. -/
def defaultExtractionOptions : SymbolExtractionOptions :=
  { includeNodeModules := false, includeSystemSymbols := false }

/-- Syntax-tree skeleton for the dependency walk. Sibling sequences
(statement lists, argument lists, object literals, type-argument lists) are
`nodeCons` chains. Constructors record exactly the parent shapes the walker
in `findSymbolDependencies` inspects: the property name of a property
access, the head name of a type reference, the name of an object-literal
property, and the names bound by variable and function declarations. -/
inductive TsNode where
  | nodeNil
  | nodeCons (head tail : TsNode)
  | ident (name : String)
  | strLit (value : String)
  | propAccess (obj : TsNode) (propertyName : String)
  | typeRef (typeName : String) (typeArgs : TsNode)
  | callExpr (callee : TsNode) (args : TsNode)
  | newExpr (callee : TsNode) (args : TsNode)
  | objectProp (propertyName : String) (value : TsNode)
  | varDeclStmt (declName : String) (init : TsNode)
  | funcDeclStmt (declName : String) (body : TsNode)
  | arrowFn (params : TsNode) (body : TsNode)
deriving DecidableEq

/-- A sibling sequence from a list of nodes. -/
def nlist (l : List TsNode) : TsNode :=
  l.foldr TsNode.nodeCons TsNode.nodeNil

/-- The `ts.isFunctionExpression(init) || ts.isArrowFunction(init)` test of
`collectLocals` (function expressions are also modelled by `arrowFn`). -/
def isFunctionLikeLit : TsNode → Bool
  | .arrowFn _ _ => true
  | _ => false

/-- The `collectLocals` pass of `findSymbolDependencies`: gather the names of
variable declarations anywhere in the subtree (`localVariables`, and also
`localFunctions` when the initializer is a function literal) and of inner
function declarations (`localFunctions`), visiting each node before its
children. -/
def collectLocals : TsNode → List String × List String → List String × List String
  | .nodeNil, acc => acc
  | .nodeCons h t, acc => collectLocals t (collectLocals h acc)
  | .ident _, acc => acc
  | .strLit _, acc => acc
  | .propAccess obj _, acc => collectLocals obj acc
  | .typeRef _ args, acc => collectLocals args acc
  | .callExpr f args, acc => collectLocals args (collectLocals f acc)
  | .newExpr f args, acc => collectLocals args (collectLocals f acc)
  | .objectProp _ v, acc => collectLocals v acc
  | .varDeclStmt n init, acc =>
    let lf := if isFunctionLikeLit init then lsInsert acc.1 n else acc.1
    collectLocals init (lf, lsInsert acc.2 n)
  | .funcDeclStmt n body, acc => collectLocals body (lsInsert acc.1 n, acc.2)
  | .arrowFn params body, acc => collectLocals body (collectLocals params acc)

/-- The dependency id computed at an emitting identifier `n` (lines 492-496
of `src/lang/extractSymbols/index.ts`): through the file's import table when
`n` is imported (falling back to `n` itself when the import record has no
original name), else through the basename of the declaration's file. -/
def symbolIdFor (imports : SMap ImportInfo) (decl : ResolvedDecl) (n : String) : String :=
  match smapGet imports n with
  | some importInfo => importInfo.fromModule ++ (":") ++ (importInfo.originalName.getD n)
  | none => basename decl.fileName ++ (":") ++ n

/-- The context threaded through the dependency walk. -/
structure DepContext where
  imports : SMap ImportInfo
  resolve : SMap ResolvedDecl
  localFunctions : List String
  localVariables : List String
  selfName : Option String
  currentFile : String
  opts : SymbolExtractionOptions

/-- The identifier case of `collectDependencies` in
`src/lang/extractSymbols/index.ts`, with its checks in source order:
resolution, local shadowing, id computation, the standard-library and
external-dependency filters, the parameter filter, the ancestor-chain
self-reference filter (modelled through `selfName`: the walk runs inside the
declaration of the symbol named there, owned by `currentFile`), the
interface/class property filter, and the filter that drops a reference
whenever its declaration is a type alias, an interface, or a class. -/
def visitIdent (ctx : DepContext) (acc : List String) (n : String) : List String :=
  match smapGet ctx.resolve n with
  | none => acc
  | some decl =>
    if n ∈ ctx.localFunctions ∨ n ∈ ctx.localVariables then acc
    else
      let symbolId := symbolIdFor ctx.imports decl n
      if strContains decl.fileName ("node_modules/typescript/lib/")
          && !ctx.opts.includeSystemSymbols then acc
      else if strContains decl.fileName ("node_modules/")
          && !(strContains decl.fileName ("node_modules/typescript/lib/"))
          && !ctx.opts.includeNodeModules then acc
      else if decl.kind = DeclKind.parameterDecl then acc
      else if ctx.selfName = some n ∧ decl.fileName = ctx.currentFile then acc
      else if decl.kind = DeclKind.propertySig ∨ decl.kind = DeclKind.propertyDecl then acc
      else if decl.kind = DeclKind.typeAliasDecl ∨ decl.kind = DeclKind.interfaceDecl
          ∨ decl.kind = DeclKind.classDecl then acc
      else lsInsert acc symbolId

/-- The depth-first `collectDependencies` walk. Parent-position checks of
the source are structural here: the property name of a `propAccess` is
never passed to `visitIdent` (the walker returns at identifiers in property
position), the head name of a `typeRef` is never passed (the parent is a
type-reference node), and the name of an `objectProp` is never passed (it
resolves to its own enclosing property assignment, which the ancestor-chain
check rejects). The names of variable and function declarations are visited
and fall to the local-shadowing check, as in the source. -/
def collectDependencies (ctx : DepContext) : List String → TsNode → List String
  | acc, .nodeNil => acc
  | acc, .nodeCons h t => collectDependencies ctx (collectDependencies ctx acc h) t
  | acc, .ident n => visitIdent ctx acc n
  | acc, .strLit _ => acc
  | acc, .propAccess obj _ => collectDependencies ctx acc obj
  | acc, .typeRef _ args => collectDependencies ctx acc args
  | acc, .callExpr f args => collectDependencies ctx (collectDependencies ctx acc f) args
  | acc, .newExpr f args => collectDependencies ctx (collectDependencies ctx acc f) args
  | acc, .objectProp _ v => collectDependencies ctx acc v
  | acc, .varDeclStmt n init => collectDependencies ctx (visitIdent ctx acc n) init
  | acc, .funcDeclStmt n body => collectDependencies ctx (visitIdent ctx acc n) body
  | acc, .arrowFn params body => collectDependencies ctx (collectDependencies ctx acc params) body

/-- From `findSymbolDependencies` in `src/lang/extractSymbols/index.ts`:
collect the local names, then walk the declaration subtree. -/
def findSymbolDependencies (node : TsNode) (imports : SMap ImportInfo)
    (resolve : SMap ResolvedDecl) (selfName : Option String) (currentFile : String)
    (opts : SymbolExtractionOptions) : List String :=
  let locals := collectLocals node ([], [])
  collectDependencies
    { imports := imports, resolve := resolve, localFunctions := locals.1
      localVariables := locals.2, selfName := selfName, currentFile := currentFile
      opts := opts } [] node

/-- The identifier occurrences the walk passes to `visitIdent`: every
identifier except those in property position, in type-reference head
position, or naming an object-literal property. -/
def visitedIdents : TsNode → List String
  | .nodeNil => []
  | .nodeCons h t => visitedIdents h ++ visitedIdents t
  | .ident n => [n]
  | .strLit _ => []
  | .propAccess obj _ => visitedIdents obj
  | .typeRef _ args => visitedIdents args
  | .callExpr f args => visitedIdents f ++ visitedIdents args
  | .newExpr f args => visitedIdents f ++ visitedIdents args
  | .objectProp _ v => visitedIdents v
  | .varDeclStmt n init => n :: visitedIdents init
  | .funcDeclStmt n body => n :: visitedIdents body
  | .arrowFn params body => visitedIdents params ++ visitedIdents body

/-- Helper building a `SymbolInfo` as `createSymbolInfo` leaves it after the
dependency pass: the `dependents` set starts (and, nothing ever populating
it, stays) empty. -/
def mkSymbol (name fileName : String) (isExported : Bool) (deps : List String) :
    SymbolInfo :=
  { name := name, fileName := fileName, isExported := isExported
    dependencies := deps, dependents := [] }

/-- Path of the bundled standard library, as seen by the external-file
classification of the resolver. -/
def libFile : String := "/project/node_modules/typescript/lib/lib.es5.d.ts"

/-!
Scenario S3 of the specification: four files `types`, `utils`, `api`,
`index`. The syntax trees below transcribe the bodies given in the spec
(also present verbatim as a test fixture of the repository), and the
`resolve` maps record what the type checker answers for each identifier
occurring in them.
-/

/-- Checker answers for identifiers inside the `types` file. -/
def s3TypesResolve : SMap ResolvedDecl :=
  [(("UserRole"), { kind := DeclKind.typeAliasDecl, fileName := "types" }),
   (("T"), { kind := DeclKind.typeParamDecl, fileName := "types" })]

/-- Declaration of `type UserRole = "admin" | "user" | "guest"`: a union of
string-literal types contains no identifier. -/
def s3UserRoleAst : TsNode := TsNode.nodeNil

/-- Declaration of `interface User`: members with keyword types contribute no
identifiers; `role: UserRole` contributes one type reference. -/
def s3UserAst : TsNode := TsNode.typeRef ("UserRole") TsNode.nodeNil

/-- Declaration of `interface ApiResponse<T>`: `data: T` contributes one type
reference. -/
def s3ApiResponseAst : TsNode := TsNode.typeRef ("T") TsNode.nodeNil

/-- The `types` file record, dependencies computed by the resolver. -/
def s3TypesFile : FileSymbols :=
  { fileName := "types"
    symbols :=
      { exports :=
          [(("UserRole"), mkSymbol ("UserRole") ("types") true
              (findSymbolDependencies s3UserRoleAst [] s3TypesResolve (some ("UserRole"))
                ("types") defaultExtractionOptions)),
           (("User"), mkSymbol ("User") ("types") true
              (findSymbolDependencies s3UserAst [] s3TypesResolve (some ("User"))
                ("types") defaultExtractionOptions)),
           (("ApiResponse"), mkSymbol ("ApiResponse") ("types") true
              (findSymbolDependencies s3ApiResponseAst [] s3TypesResolve (some ("ApiResponse"))
                ("types") defaultExtractionOptions))]
        internal := []
        imports := [] } }

/-- Import table of `utils` (`import { UserRole } from "./types"`), the
module specifier resolved as `handleImportDeclaration` does. -/
def s3UtilsImports : SMap ImportInfo :=
  [(("UserRole"),
    { name := "UserRole", fromModule := resolveRelativePath ("utils") ("./types"),
      isDefault := false, originalName := some ("UserRole") })]

/-- Checker answers for identifiers inside the `utils` file. -/
def s3UtilsResolve : SMap ResolvedDecl :=
  [(("role"), { kind := DeclKind.parameterDecl, fileName := "utils" }),
   (("name"), { kind := DeclKind.parameterDecl, fileName := "utils" }),
   (("UserRole"), { kind := DeclKind.typeAliasDecl, fileName := "types" })]

/-- Body of `validateRole(role: UserRole)`:
`return ["admin", "user", "guest"].includes(role)`. -/
def s3ValidateRoleAst : TsNode :=
  nlist
    [TsNode.typeRef ("UserRole") TsNode.nodeNil,
     TsNode.callExpr
       (TsNode.propAccess
         (nlist [TsNode.strLit ("admin"), TsNode.strLit ("user"), TsNode.strLit ("guest")])
         ("includes"))
       (nlist [TsNode.ident ("role")])]

/-- Body of `formatUserName(name)`: `return name.trim().toUpperCase()`. -/
def s3FormatUserNameAst : TsNode :=
  nlist
    [TsNode.callExpr
      (TsNode.propAccess
        (TsNode.callExpr (TsNode.propAccess (TsNode.ident ("name")) ("trim")) TsNode.nodeNil)
        ("toUpperCase"))
      TsNode.nodeNil]

/-- The `utils` file record. -/
def s3UtilsFile : FileSymbols :=
  { fileName := "utils"
    symbols :=
      { exports :=
          [(("validateRole"), mkSymbol ("validateRole") ("utils") true
              (findSymbolDependencies s3ValidateRoleAst s3UtilsImports s3UtilsResolve
                (some ("validateRole")) ("utils") defaultExtractionOptions)),
           (("formatUserName"), mkSymbol ("formatUserName") ("utils") true
              (findSymbolDependencies s3FormatUserNameAst s3UtilsImports s3UtilsResolve
                (some ("formatUserName")) ("utils") defaultExtractionOptions))]
        internal := []
        imports := s3UtilsImports } }

/-- Import table of `api` (`import { User, ApiResponse } from "./types"` and
`import { validateRole, formatUserName } from "./utils"`). -/
def s3ApiImports : SMap ImportInfo :=
  [(("User"),
    { name := "User", fromModule := resolveRelativePath ("api") ("./types"),
      isDefault := false, originalName := some ("User") }),
   (("ApiResponse"),
    { name := "ApiResponse", fromModule := resolveRelativePath ("api") ("./types"),
      isDefault := false, originalName := some ("ApiResponse") }),
   (("validateRole"),
    { name := "validateRole", fromModule := resolveRelativePath ("api") ("./utils"),
      isDefault := false, originalName := some ("validateRole") }),
   (("formatUserName"),
    { name := "formatUserName", fromModule := resolveRelativePath ("api") ("./utils"),
      isDefault := false, originalName := some ("formatUserName") })]

/-- Checker answers for identifiers inside the `api` file. -/
def s3ApiResolve : SMap ResolvedDecl :=
  [(("id"), { kind := DeclKind.parameterDecl, fileName := "api" }),
   (("user"), { kind := DeclKind.parameterDecl, fileName := "api" }),
   (("User"), { kind := DeclKind.interfaceDecl, fileName := "types" }),
   (("ApiResponse"), { kind := DeclKind.interfaceDecl, fileName := "types" }),
   (("validateRole"), { kind := DeclKind.funcDecl, fileName := "utils" }),
   (("formatUserName"), { kind := DeclKind.funcDecl, fileName := "utils" }),
   (("Error"), { kind := DeclKind.varDecl, fileName := libFile }),
   (("Promise"), { kind := DeclKind.interfaceDecl, fileName := libFile })]

/-- Body of `fetchUser(id): Promise<ApiResponse<User>>`: a return-type
annotation and a returned object literal (the shorthand `id` resolves to the
parameter). -/
def s3FetchUserAst : TsNode :=
  nlist
    [TsNode.typeRef ("Promise")
      (TsNode.typeRef ("ApiResponse") (TsNode.typeRef ("User") TsNode.nodeNil)),
     nlist
       [TsNode.objectProp ("data")
         (nlist
           [TsNode.objectProp ("id") (TsNode.ident ("id")),
            TsNode.objectProp ("name") (TsNode.strLit ("John Doe")),
            TsNode.objectProp ("role") (TsNode.strLit ("user"))]),
        TsNode.objectProp ("status") (TsNode.strLit ("success"))]]

/-- Body of `processUser(user: User): User`: a guard calling `validateRole`,
a thrown `Error`, and a returned object literal spreading `user` and calling
`formatUserName`. -/
def s3ProcessUserAst : TsNode :=
  nlist
    [TsNode.typeRef ("User") TsNode.nodeNil,
     TsNode.typeRef ("User") TsNode.nodeNil,
     TsNode.callExpr (TsNode.ident ("validateRole"))
       (nlist [TsNode.propAccess (TsNode.ident ("user")) ("role")]),
     TsNode.newExpr (TsNode.ident ("Error")) (nlist [TsNode.strLit ("Invalid role")]),
     nlist
       [TsNode.ident ("user"),
        TsNode.objectProp ("name")
          (TsNode.callExpr (TsNode.ident ("formatUserName"))
            (nlist [TsNode.propAccess (TsNode.ident ("user")) ("name")]))]]

/-- The `api` file record. -/
def s3ApiFile : FileSymbols :=
  { fileName := "api"
    symbols :=
      { exports :=
          [(("fetchUser"), mkSymbol ("fetchUser") ("api") true
              (findSymbolDependencies s3FetchUserAst s3ApiImports s3ApiResolve
                (some ("fetchUser")) ("api") defaultExtractionOptions)),
           (("processUser"), mkSymbol ("processUser") ("api") true
              (findSymbolDependencies s3ProcessUserAst s3ApiImports s3ApiResolve
                (some ("processUser")) ("api") defaultExtractionOptions))]
        internal := []
        imports := s3ApiImports } }

/-- Import table of `index` (`import { fetchUser, processUser } from "./api"`
and `import { User } from "./types"`). -/
def s3IndexImports : SMap ImportInfo :=
  [(("fetchUser"),
    { name := "fetchUser", fromModule := resolveRelativePath ("index") ("./api"),
      isDefault := false, originalName := some ("fetchUser") }),
   (("processUser"),
    { name := "processUser", fromModule := resolveRelativePath ("index") ("./api"),
      isDefault := false, originalName := some ("processUser") }),
   (("User"),
    { name := "User", fromModule := resolveRelativePath ("index") ("./types"),
      isDefault := false, originalName := some ("User") })]

/-- Checker answers for identifiers inside the `index` file. -/
def s3IndexResolve : SMap ResolvedDecl :=
  [(("fetchUser"), { kind := DeclKind.funcDecl, fileName := "api" }),
   (("processUser"), { kind := DeclKind.funcDecl, fileName := "api" }),
   (("User"), { kind := DeclKind.interfaceDecl, fileName := "types" }),
   (("response"), { kind := DeclKind.varDecl, fileName := "index" }),
   (("processedUser"), { kind := DeclKind.varDecl, fileName := "index" }),
   (("console"), { kind := DeclKind.varDecl, fileName := libFile })]

/-- Body of `main(): Promise<void>`: awaits `fetchUser`, inspects
`response.status`, calls `processUser`, and logs. -/
def s3MainAst : TsNode :=
  nlist
    [TsNode.typeRef ("Promise") TsNode.nodeNil,
     TsNode.varDeclStmt ("response")
       (TsNode.callExpr (TsNode.ident ("fetchUser")) (nlist [TsNode.strLit ("123")])),
     TsNode.propAccess (TsNode.ident ("response")) ("status"),
     TsNode.varDeclStmt ("processedUser")
       (TsNode.callExpr (TsNode.ident ("processUser"))
         (nlist [TsNode.propAccess (TsNode.ident ("response")) ("data")])),
     TsNode.callExpr (TsNode.propAccess (TsNode.ident ("console")) ("log"))
       (nlist [TsNode.strLit ("Processed user:"), TsNode.ident ("processedUser")])]

/-- The `index` file record. -/
def s3IndexFile : FileSymbols :=
  { fileName := "index"
    symbols :=
      { exports :=
          [(("main"), mkSymbol ("main") ("index") true
              (findSymbolDependencies s3MainAst s3IndexImports s3IndexResolve
                (some ("main")) ("index") defaultExtractionOptions))]
        internal := []
        imports := s3IndexImports } }

/-- The four files of scenario S3 in analysis order. -/
def s3Files : List FileSymbols := [s3TypesFile, s3UtilsFile, s3ApiFile, s3IndexFile]

/-- The assembled S3 project table. -/
def s3Table : ProjectSymbolTableState := analyzeProject s3Files

/-- The forward closure from the S3 entry point `index:main`. -/
def s3Closure : List String := calculateClosure s3Table [("index:main")]

/-!
Scenario for the type-position policy: a file `app` declaring a top-level
class `C`, a top-level function `g`, and a function `f` whose body uses both
in value positions: `return new C()` and `return g()`.
-/

/-- Checker answers inside `app`. -/
def c4Resolve : SMap ResolvedDecl :=
  [(("C"), { kind := DeclKind.classDecl, fileName := "app" }),
   (("g"), { kind := DeclKind.funcDecl, fileName := "app" })]

/-- A body containing the value-position class reference `new C()`. -/
def c4BodyClass : TsNode := nlist [TsNode.newExpr (TsNode.ident ("C")) TsNode.nodeNil]

/-- A body containing the value-position function reference `g()`. -/
def c4BodyFn : TsNode := nlist [TsNode.callExpr (TsNode.ident ("g")) TsNode.nodeNil]

/-- Dependencies the resolver computes for the `new C()` body. -/
def c4DepsClass : List String :=
  findSymbolDependencies c4BodyClass [] c4Resolve (some ("f")) ("app") defaultExtractionOptions

/-- Dependencies the resolver computes for the `g()` body. -/
def c4DepsFn : List String :=
  findSymbolDependencies c4BodyFn [] c4Resolve (some ("f")) ("app") defaultExtractionOptions

/-- Reachability along a dependency function: the reflexive-transitive
closure of the one-step edge relation. -/
def Reaches (deps : String → List String) (a b : String) : Prop :=
  Relation.ReflTransGen (fun x y => y ∈ deps x) a b

/-- The set of ids mentioned by a stored edge map: every key and every
member of a value. -/
def smapUniverse (l : SMap (List String)) : Finset String :=
  l.foldr (fun kv acc => insert kv.1 (kv.2.foldr insert acc)) ∅

/-- The global entries a single file contributes, in insertion order. -/
def fileEntries (fs : FileSymbols) : List (String × SymbolInfo) :=
  (symbolsOfFile fs).map (fun s => (fs.fileName ++ (":") ++ s.name, s))

/-- All global entries contributed by a list of files, in insertion order. -/
def insertedEntries (files : List FileSymbols) : List (String × SymbolInfo) :=
  (files.map fileEntries).flatten

/-- Last-binding lookup in an association list (later entries win, matching
repeated `Map.set`). -/
def lookupLast {α : Type} (l : List (String × α)) (a : String) : Option α :=
  match l with
  | [] => none
  | e :: tl =>
    match lookupLast tl a with
    | some v => some v
    | none => if e.1 = a then some e.2 else none

/-- The forward-edge map and the per-symbol dependencies stay in lockstep. -/
def SyncState (st : ProjectSymbolTableState) : Prop :=
  ∀ a, smapGet st.dependencies a = (smapGet st.globalSymbols a).map SymbolInfo.dependencies

/-!
Concrete inputs used by the individual claim analyses.
-/

/-- A symbol `a` of file `f` as first inserted. -/
def c3SymOld : SymbolInfo := mkSymbol ("a") ("f") true []

/-- A different symbol record for the same id `f:a`. -/
def c3SymNew : SymbolInfo := mkSymbol ("a") ("f") true [("f:b")]

/-- The file record carrying `c3SymOld`. -/
def c3File1 : FileSymbols :=
  { fileName := "f", symbols := { exports := [(("a"), c3SymOld)], internal := [], imports := [] } }

/-- The file record carrying `c3SymNew` under the same id. -/
def c3File2 : FileSymbols :=
  { fileName := "f", symbols := { exports := [(("a"), c3SymNew)], internal := [], imports := [] } }

/-- The table after the first insertion. -/
def c3St1 : ProjectSymbolTableState := addFileSymbols createProjectSymbolTable c3File1

/-- The table after re-inserting the already-present id `f:a`. -/
def c3St2 : ProjectSymbolTableState := addFileSymbols c3St1 c3File2

/-- A project holding only the S3 `index` file: its `main` symbol references
ids of files that were never inserted. -/
def c7Table : ProjectSymbolTableState := analyzeProject [s3IndexFile]

/-- The full tree-shaking result over the S3 project. -/
def s3Shake : TreeShakingResult := performTreeShaking s3Files [("index:main")]

/-- Tree shaking of an empty project with an entry id that resolves to no
symbol. -/
def c5ShakeGhost : TreeShakingResult := performTreeShaking [] [("ghost:x")]

/-!
General lemmas about the container models.
-/

/-- Membership after a set-style insertion. -/
theorem mem_lsInsert {s : List String} {x y : String} :
    y ∈ lsInsert s x ↔ y ∈ s ∨ y = x := by
  unfold lsInsert
  by_cases h : x ∈ s
  · rw [if_pos h]
    constructor
    · exact Or.inl
    · rintro (hy | rfl)
      · exact hy
      · exact h
  · rw [if_neg h]
    simp [List.mem_append]

/-- Lookup in a one-step extension. -/
theorem smapGet_cons {α : Type} (p : String × α) (m : SMap α) (a : String) :
    smapGet (p :: m) a = if p.1 = a then some p.2 else smapGet m a := by
  by_cases h : p.1 = a
  · rw [smapGet, List.find?_cons_of_pos _ (by simp [h]), if_pos h]
    rfl
  · rw [smapGet, List.find?_cons_of_neg _ (by simp [h]), if_neg h]
    rfl

/-- Lookup after an update. -/
theorem smapGet_smapSet {α : Type} (m : SMap α) (k : String) (v : α) (a : String) :
    smapGet (smapSet m k v) a = if a = k then some v else smapGet m a := by
  induction m with
  | nil =>
    by_cases h : a = k
    · simp [smapSet, smapGet_cons, h]
    · simp only [smapSet]
      rw [smapGet_cons, if_neg (fun hk => h hk.symm), if_neg h]
  | cons p rest ih =>
    simp only [smapSet]
    by_cases hp : p.1 = k
    · rw [if_pos hp, smapGet_cons]
      by_cases ha : a = k
      · simp [ha]
      · rw [if_neg (fun hk => ha hk.symm), if_neg ha, smapGet_cons, hp,
          if_neg (fun hk => ha hk.symm)]
    · rw [if_neg hp, smapGet_cons, smapGet_cons]
      by_cases hpa : p.1 = a
      · rw [if_pos hpa, if_pos hpa, if_neg]
        intro hak
        exact hp (hpa ▸ hak ▸ rfl)
      · rw [if_neg hpa, if_neg hpa, ih]

/-!
Reachability along the stored forward edges, and correctness of the
breadth-first worklist in `calculateClosure`.
-/

/-- Reachability is reflexive. -/
theorem reaches_refl (deps : String → List String) (a : String) : Reaches deps a a :=
  Relation.ReflTransGen.refl

/-- Prepend one edge to a reachability path. -/
theorem reaches_head {deps : String → List String} {a d x : String}
    (h1 : d ∈ deps a) (h2 : Reaches deps d x) : Reaches deps a x :=
  Relation.ReflTransGen.head h1 h2

/-- Reachability is transitive. -/
theorem reaches_trans {deps : String → List String} {a b c : String}
    (h1 : Reaches deps a b) (h2 : Reaches deps b c) : Reaches deps a c :=
  Relation.ReflTransGen.trans h1 h2

/-- A set closed under the edge relation absorbs reachability. -/
theorem reaches_closed (deps : String → List String) (W : String → Prop)
    (hcl : ∀ a, W a → ∀ d ∈ deps a, W d) {a x : String}
    (ha : W a) (h : Reaches deps a x) : W x := by
  induction h with
  | refl => exact ha
  | tail _ hbc ih => exact hcl _ ih _ hbc

/-- The worklist invariant (every visited node has all its edges inside
visited-or-queue) absorbs reachability from a visited node. -/
theorem mem_of_reaches_invariant (deps : String → List String)
    (visited queue : List String)
    (hinv : ∀ v ∈ visited, ∀ d ∈ deps v, d ∈ visited ∨ d ∈ queue)
    {a x : String} (ha : a ∈ visited) (h : Reaches deps a x) :
    x ∈ visited ∨ ∃ q ∈ queue, Reaches deps q x := by
  refine reaches_closed deps (fun z => z ∈ visited ∨ ∃ q ∈ queue, Reaches deps q z)
    ?_ (Or.inl ha) h
  intro b hb d hd
  rcases hb with hb | ⟨q, hq1, hq2⟩
  · rcases hinv b hb d hd with h1 | h1
    · exact Or.inl h1
    · exact Or.inr ⟨d, h1, reaches_refl deps d⟩
  · exact Or.inr ⟨q, hq1, hq2.tail hd⟩

/-- Membership in a fold of insertions. -/
theorem mem_foldr_insert (v : List String) (acc : Finset String) (d : String) :
    d ∈ v.foldr insert acc ↔ d ∈ v ∨ d ∈ acc := by
  induction v with
  | nil => simp
  | cons h t ih => simp [ih, or_assoc]

/-- Every member of a stored value belongs to the universe of the map. -/
theorem mem_smapUniverse_of_get {l : SMap (List String)} {x d : String} {v : List String}
    (hget : smapGet l x = some v) (hd : d ∈ v) : d ∈ smapUniverse l := by
  induction l with
  | nil => simp [smapGet] at hget
  | cons p tl ih =>
    rw [smapGet_cons] at hget
    simp only [smapUniverse, List.foldr_cons, Finset.mem_insert, mem_foldr_insert]
    by_cases hp : p.1 = x
    · rw [if_pos hp] at hget
      cases hget
      exact Or.inr (Or.inl hd)
    · rw [if_neg hp] at hget
      exact Or.inr (Or.inr (ih hget))

/-- The total stored out-degree bounds any sum of looked-up degrees over a
finite set of ids. -/
theorem sum_smapGet_len_le (l : SMap (List String)) (S : Finset String) :
    (S.sum fun x => ((smapGet l x).getD []).length)
      ≤ (l.map (fun kv => kv.2.length)).sum := by
  induction l generalizing S with
  | nil => simp [smapGet]
  | cons p tl ih =>
    have hrw : ∀ x, ((smapGet (p :: tl) x).getD []).length =
        if p.1 = x then p.2.length else ((smapGet tl x).getD []).length := by
      intro x
      rw [smapGet_cons]
      by_cases h : p.1 = x <;> simp [h]
    by_cases hk : p.1 ∈ S
    · rw [← Finset.sum_erase_add S _ hk]
      have h1 : ((S.erase p.1).sum fun x => ((smapGet (p :: tl) x).getD []).length)
          = (S.erase p.1).sum fun x => ((smapGet tl x).getD []).length := by
        refine Finset.sum_congr rfl ?_
        intro x hx
        rw [hrw x, if_neg (Finset.ne_of_mem_erase hx).symm]
      rw [h1, hrw p.1, if_pos rfl]
      simp only [List.map_cons, List.sum_cons]
      have := ih (S.erase p.1)
      omega
    · have h1 : (S.sum fun x => ((smapGet (p :: tl) x).getD []).length)
          = S.sum fun x => ((smapGet tl x).getD []).length := by
        refine Finset.sum_congr rfl ?_
        intro x hx
        rw [hrw x, if_neg]
        intro h
        exact hk (h ▸ hx)
      rw [h1]
      simp only [List.map_cons, List.sum_cons]
      have := ih S
      omega

/-- Correctness of the worklist loop: with the invariant, queue ids drawn
from a universe closed under the edges, and fuel above the potential, the
loop computes exactly the visited set together with everything reachable
from the queue. -/
theorem calculateClosureAux_mem (deps : String → List String) (U : Finset String)
    (hdeps : ∀ x d, d ∈ deps x → d ∈ U) :
    ∀ (fuel : Nat) (visited queue : List String),
    (∀ v ∈ visited, ∀ d ∈ deps v, d ∈ visited ∨ d ∈ queue) →
    (∀ q ∈ queue, q ∈ U) →
    queue.length + ((U.filter (fun x => x ∉ visited)).sum fun x => (deps x).length) < fuel →
    ∀ x, x ∈ calculateClosureAux deps fuel visited visited queue ↔
      x ∈ visited ∨ ∃ q ∈ queue, Reaches deps q x := by
  intro fuel
  induction fuel with
  | zero =>
    intro visited queue _ _ hfuel
    omega
  | succ f ih =>
    intro visited queue hinv hq hfuel x
    match queue with
    | [] =>
      simp [calculateClosureAux]
    | current :: rest =>
      rw [calculateClosureAux]
      by_cases hc : current ∈ visited
      · rw [if_pos hc]
        have hinv2 : ∀ v ∈ visited, ∀ d ∈ deps v, d ∈ visited ∨ d ∈ rest := by
          intro v hv d hd
          rcases hinv v hv d hd with h | h
          · exact Or.inl h
          · rcases List.mem_cons.mp h with rfl | h
            · exact Or.inl hc
            · exact Or.inr h
        have hq2 : ∀ q ∈ rest, q ∈ U := fun q hqr => hq q (List.mem_cons_of_mem _ hqr)
        have hfuel2 : rest.length
            + ((U.filter (fun z => z ∉ visited)).sum fun z => (deps z).length) < f := by
          simp only [List.length_cons] at hfuel
          omega
        rw [ih visited rest hinv2 hq2 hfuel2 x]
        constructor
        · rintro (h | ⟨q, hm1, hm2⟩)
          · exact Or.inl h
          · exact Or.inr ⟨q, List.mem_cons_of_mem _ hm1, hm2⟩
        · rintro (h | ⟨q, hm1, hm2⟩)
          · exact Or.inl h
          · rcases List.mem_cons.mp hm1 with rfl | hm1
            · exact mem_of_reaches_invariant deps visited rest hinv2 hc hm2
            · exact Or.inr ⟨q, hm1, hm2⟩
      · rw [if_neg hc]
        show x ∈ calculateClosureAux deps f (lsInsert visited current) (lsInsert visited current)
            (rest ++ (deps current).filter (fun d => decide (d ∉ lsInsert visited current))) ↔ _
        have hcu : current ∈ U := hq current (List.mem_cons_self _ _)
        have hinv2 : ∀ v ∈ lsInsert visited current, ∀ d ∈ deps v,
            d ∈ lsInsert visited current
            ∨ d ∈ rest ++ (deps current).filter (fun d => decide (d ∉ lsInsert visited current)) := by
          intro v hv d hd
          rcases mem_lsInsert.mp hv with hv | rfl
          · rcases hinv v hv d hd with h | h
            · exact Or.inl (mem_lsInsert.mpr (Or.inl h))
            · rcases List.mem_cons.mp h with rfl | h
              · exact Or.inl (mem_lsInsert.mpr (Or.inr rfl))
              · exact Or.inr (List.mem_append.mpr (Or.inl h))
          · by_cases hdv : d ∈ lsInsert visited v
            · exact Or.inl hdv
            · refine Or.inr (List.mem_append.mpr (Or.inr ?_))
              rw [List.mem_filter]
              exact ⟨hd, by simpa using hdv⟩
        have hq2 : ∀ q ∈ rest ++ (deps current).filter
            (fun d => decide (d ∉ lsInsert visited current)), q ∈ U := by
          intro q hqm
          rcases List.mem_append.mp hqm with h | h
          · exact hq q (List.mem_cons_of_mem _ h)
          · exact hdeps current q (List.mem_of_mem_filter h)
        have hsplit : U.filter (fun z => z ∉ visited)
            = insert current (U.filter (fun z => z ∉ lsInsert visited current)) := by
          ext z
          simp only [Finset.mem_filter, Finset.mem_insert, mem_lsInsert]
          constructor
          · rintro ⟨hzU, hzv⟩
            by_cases hz : z = current
            · exact Or.inl hz
            · exact Or.inr ⟨hzU, by tauto⟩
          · rintro (rfl | ⟨hzU, hz⟩)
            · exact ⟨hcu, hc⟩
            · exact ⟨hzU, fun h => hz (Or.inl h)⟩
        have hnotmem : current ∉ U.filter (fun z => z ∉ lsInsert visited current) := by
          simp [Finset.mem_filter, mem_lsInsert]
        have hsum : ((U.filter (fun z => z ∉ visited)).sum fun z => (deps z).length)
            = (deps current).length
              + ((U.filter (fun z => z ∉ lsInsert visited current)).sum
                  fun z => (deps z).length) := by
          rw [hsplit, Finset.sum_insert hnotmem]
        have hlen : ((deps current).filter
            (fun d => decide (d ∉ lsInsert visited current))).length
            ≤ (deps current).length := List.length_filter_le _ _
        have hfuel2 : (rest ++ (deps current).filter
            (fun d => decide (d ∉ lsInsert visited current))).length
            + ((U.filter (fun z => z ∉ lsInsert visited current)).sum
                fun z => (deps z).length) < f := by
          rw [List.length_append]
          simp only [List.length_cons] at hfuel
          omega
        rw [ih (lsInsert visited current) _ hinv2 hq2 hfuel2 x]
        constructor
        · rintro (h | ⟨q, hm1, hm2⟩)
          · rcases mem_lsInsert.mp h with h | rfl
            · exact Or.inl h
            · exact Or.inr ⟨x, List.mem_cons_self _ _, reaches_refl deps x⟩
          · rcases List.mem_append.mp hm1 with h | h
            · exact Or.inr ⟨q, List.mem_cons_of_mem _ h, hm2⟩
            · exact Or.inr ⟨current, List.mem_cons_self _ _,
                reaches_head (List.mem_of_mem_filter h) hm2⟩
        · rintro (h | ⟨q, hm1, hm2⟩)
          · exact Or.inl (mem_lsInsert.mpr (Or.inl h))
          · rcases List.mem_cons.mp hm1 with rfl | hm1
            · exact mem_of_reaches_invariant deps _ _ hinv2
                (mem_lsInsert.mpr (Or.inr rfl)) hm2
            · exact Or.inr ⟨q, List.mem_append.mpr (Or.inl hm1), hm2⟩

/-- The breadth-first closure computes exactly reachability from the roots. -/
theorem mem_calculateClosure (st : ProjectSymbolTableState) (roots : List String)
    (x : String) :
    x ∈ calculateClosure st roots ↔ ∃ r ∈ roots, Reaches (getDependencies st) r x := by
  have hdeps : ∀ y d, d ∈ getDependencies st y →
      d ∈ roots.toFinset ∪ smapUniverse st.dependencies := by
    intro y d hd
    unfold getDependencies at hd
    rcases hget : smapGet st.dependencies y with _ | v
    · rw [hget] at hd
      simp at hd
    · rw [hget] at hd
      exact Finset.mem_union_right _ (mem_smapUniverse_of_get hget hd)
  have hq : ∀ q ∈ roots, q ∈ roots.toFinset ∪ smapUniverse st.dependencies := by
    intro q hqm
    exact Finset.mem_union_left _ (List.mem_toFinset.mpr hqm)
  have hfuel : roots.length
      + (((roots.toFinset ∪ smapUniverse st.dependencies).filter
          (fun z => z ∉ ([] : List String))).sum fun z => (getDependencies st z).length)
      < closureFuel st roots := by
    have h1 : ((roots.toFinset ∪ smapUniverse st.dependencies).filter
        (fun z => z ∉ ([] : List String)))
        = roots.toFinset ∪ smapUniverse st.dependencies := by
      apply Finset.filter_true_of_mem
      intro z _
      simp
    rw [h1]
    have h2 := sum_smapGet_len_le st.dependencies (roots.toFinset ∪ smapUniverse st.dependencies)
    unfold closureFuel
    unfold getDependencies
    omega
  have h := calculateClosureAux_mem (getDependencies st)
    (roots.toFinset ∪ smapUniverse st.dependencies) hdeps
    (closureFuel st roots) [] roots (by simp) hq hfuel x
  unfold calculateClosure
  rw [h]
  simp

/-- Every root belongs to its own closure. -/
theorem root_mem_calculateClosure {st : ProjectSymbolTableState} {roots : List String}
    {r : String} (h : r ∈ roots) : r ∈ calculateClosure st roots :=
  (mem_calculateClosure st roots r).mpr ⟨r, h, reaches_refl _ r⟩

/-- Closing the closure adds nothing. -/
theorem mem_closure_closure (st : ProjectSymbolTableState) (roots : List String)
    (x : String) :
    x ∈ calculateClosure st (calculateClosure st roots)
      ↔ x ∈ calculateClosure st roots := by
  rw [mem_calculateClosure]
  constructor
  · rintro ⟨q, hq1, hq2⟩
    rcases (mem_calculateClosure st roots q).mp hq1 with ⟨r, hr1, hr2⟩
    exact (mem_calculateClosure st roots x).mpr ⟨r, hr1, reaches_trans hr2 hq2⟩
  · intro h
    exact ⟨x, h, reaches_refl _ x⟩

/-!
Characterization of the table produced by a sequence of insertions.
-/

/-- Splitting a last-binding lookup over an append. -/
theorem lookupLast_append {α : Type} (l1 l2 : List (String × α)) (a : String) :
    lookupLast (l1 ++ l2) a =
      match lookupLast l2 a with
      | some v => some v
      | none => lookupLast l1 a := by
  induction l1 with
  | nil =>
    simp only [List.nil_append, lookupLast]
    cases lookupLast l2 a <;> rfl
  | cons e tl ih =>
    show (match lookupLast (tl ++ l2) a with
          | some v => some v
          | none => if e.1 = a then some e.2 else none) = _
    rw [ih]
    simp only [lookupLast]
    cases lookupLast l2 a <;> cases lookupLast tl a <;> rfl

/-- A last-binding lookup misses exactly the keys absent from the list. -/
theorem lookupLast_eq_none_iff {α : Type} (l : List (String × α)) (a : String) :
    lookupLast l a = none ↔ a ∉ l.map Prod.fst := by
  induction l with
  | nil => simp [lookupLast]
  | cons e tl ih =>
    simp only [lookupLast, List.map_cons, List.mem_cons]
    cases h : lookupLast tl a with
    | some v =>
      have hmem : a ∈ tl.map Prod.fst := by
        by_contra hc
        rw [ih.mpr hc] at h
        cases h
      simp only []
      constructor
      · intro hc
        cases hc
      · intro hc
        exact (hc (Or.inr hmem)).elim
    | none =>
      have hnm := ih.mp h
      by_cases he : e.1 = a
      · rw [if_pos he]
        simp only []
        constructor
        · intro hc
          cases hc
        · intro hc
          exact (hc (Or.inl he.symm)).elim
      · rw [if_neg he]
        simp only []
        constructor
        · intro _
          rintro (hc | hc)
          · exact he hc.symm
          · exact hnm hc
        · intro _
          trivial

/-- Under unique keys, membership and last-binding lookup agree. -/
theorem lookupLast_eq_some_of_nodup {α : Type} {l : List (String × α)}
    (hnodup : (l.map Prod.fst).Nodup) {a : String} {s : α} :
    (a, s) ∈ l ↔ lookupLast l a = some s := by
  induction l with
  | nil => simp [lookupLast]
  | cons e tl ih =>
    rw [List.map_cons, List.nodup_cons] at hnodup
    simp only [List.mem_cons, lookupLast]
    cases h : lookupLast tl a with
    | some v =>
      have hmem : a ∈ tl.map Prod.fst := by
        by_contra hc
        rw [(lookupLast_eq_none_iff tl a).mpr hc] at h
        cases h
      simp only []
      constructor
      · rintro (heq | hmemtl)
        · exfalso
          apply hnodup.1
          rw [← heq]
          exact hmem
        · rw [← h]
          exact (ih hnodup.2).mp hmemtl
      · intro hv
        exact Or.inr ((ih hnodup.2).mpr (h.trans hv))
    | none =>
      have hnm : a ∉ tl.map Prod.fst := (lookupLast_eq_none_iff tl a).mp h
      simp only []
      by_cases he : e.1 = a
      · rw [if_pos he]
        constructor
        · rintro (heq | hmemtl)
          · rw [← heq]
          · exact absurd (List.mem_map.mpr ⟨(a, s), hmemtl, rfl⟩) hnm
        · intro hv
          have h2 : e.2 = s := by injection hv
          left
          calc (a, s) = (e.1, e.2) := by rw [he, h2]
          _ = e := rfl
      · rw [if_neg he]
        constructor
        · rintro (heq | hmemtl)
          · exact absurd (by rw [← heq] : e.1 = a) he
          · exact absurd (List.mem_map.mpr ⟨(a, s), hmemtl, rfl⟩) hnm
        · intro hv
          cases hv

/-- Reading the global map through one symbol insertion. -/
theorem getSymbol_insertSymbolEntry (fn : String) (st : ProjectSymbolTableState)
    (s : SymbolInfo) (a : String) :
    getSymbol (insertSymbolEntry fn st s) a =
      if a = fn ++ (":") ++ s.name then some s else getSymbol st a := by
  simp only [getSymbol, insertSymbolEntry]
  exact smapGet_smapSet _ _ _ _

/-- Reading the global map through one file's symbol fold. -/
theorem getSymbol_foldl_insert (fn : String) (syms : List SymbolInfo) :
    ∀ (st : ProjectSymbolTableState) (a : String),
    getSymbol (syms.foldl (insertSymbolEntry fn) st) a =
      match lookupLast (syms.map (fun s => (fn ++ (":") ++ s.name, s))) a with
      | some v => some v
      | none => getSymbol st a := by
  induction syms with
  | nil =>
    intro st a
    simp [lookupLast]
  | cons s tl ih =>
    intro st a
    rw [List.foldl_cons, ih]
    simp only [List.map_cons, lookupLast]
    cases lookupLast (tl.map (fun s => (fn ++ (":") ++ s.name, s))) a with
    | some v => rfl
    | none =>
      simp only []
      rw [getSymbol_insertSymbolEntry]
      by_cases h : a = fn ++ (":") ++ s.name
      · rw [if_pos h, if_pos h.symm]
      · rw [if_neg h, if_neg (fun hc => h hc.symm)]

/-- Reading the global map through one file insertion. -/
theorem getSymbol_addFileSymbols (st : ProjectSymbolTableState) (fs : FileSymbols)
    (a : String) :
    getSymbol (addFileSymbols st fs) a =
      match lookupLast (fileEntries fs) a with
      | some v => some v
      | none => getSymbol st a := by
  unfold addFileSymbols fileEntries
  rw [getSymbol_foldl_insert]
  rfl

/-- Reading the global map of the assembled project: the last binding among
all inserted entries wins. -/
theorem getSymbol_analyzeProject (files : List FileSymbols) (a : String) :
    getSymbol (analyzeProject files) a = lookupLast (insertedEntries files) a := by
  unfold analyzeProject
  have h : ∀ st, getSymbol (files.foldl addFileSymbols st) a =
      match lookupLast (insertedEntries files) a with
      | some v => some v
      | none => getSymbol st a := by
    induction files with
    | nil =>
      intro st
      simp [insertedEntries, lookupLast]
    | cons fs tl ih =>
      intro st
      rw [List.foldl_cons, ih]
      have h2 : insertedEntries (fs :: tl) = fileEntries fs ++ insertedEntries tl := by
        simp [insertedEntries]
      rw [h2, lookupLast_append, getSymbol_addFileSymbols]
      cases lookupLast (insertedEntries tl) a <;> cases lookupLast (fileEntries fs) a <;> rfl
  rw [h createProjectSymbolTable]
  cases hc : lookupLast (insertedEntries files) a <;> simp [getSymbol, createProjectSymbolTable, smapGet]

/-- One symbol insertion preserves the lockstep. -/
theorem syncState_insertSymbolEntry (fn : String) (st : ProjectSymbolTableState)
    (s : SymbolInfo) (h : SyncState st) : SyncState (insertSymbolEntry fn st s) := by
  intro a
  simp only [insertSymbolEntry]
  rw [smapGet_smapSet, smapGet_smapSet]
  by_cases ha : a = fn ++ (":") ++ s.name
  · rw [if_pos ha, if_pos ha]
    rfl
  · rw [if_neg ha, if_neg ha]
    exact h a

/-- The assembled project is in lockstep. -/
theorem syncState_analyzeProject (files : List FileSymbols) :
    SyncState (analyzeProject files) := by
  unfold analyzeProject
  have hstep : ∀ (fs : FileSymbols) (st : ProjectSymbolTableState),
      SyncState st → SyncState (addFileSymbols st fs) := by
    intro fs st hst
    unfold addFileSymbols
    have hbase : SyncState { st with fileSymbols := smapSet st.fileSymbols fs.fileName fs } :=
      hst
    revert hbase
    generalize { st with fileSymbols := smapSet st.fileSymbols fs.fileName fs }
      = st0
    intro hbase
    induction symbolsOfFile fs generalizing st0 with
    | nil => exact hbase
    | cons s tl ih =>
      rw [List.foldl_cons]
      exact ih _ (syncState_insertSymbolEntry _ _ _ hbase)
  have h : ∀ st, SyncState st → SyncState (files.foldl addFileSymbols st) := by
    induction files with
    | nil => intro st hst; exact hst
    | cons fs tl ih =>
      intro st hst
      rw [List.foldl_cons]
      exact ih _ (hstep fs st hst)
  refine h createProjectSymbolTable ?_
  intro a
  rfl

/-- The forward edges of a symbol are exactly the dependencies recorded on
the symbol stored in the global map. -/
theorem getDependencies_eq_symbol_dependencies (files : List FileSymbols) (a : String) :
    getDependencies (analyzeProject files) a
      = ((getSymbol (analyzeProject files) a).map SymbolInfo.dependencies).getD [] := by
  unfold getDependencies getSymbol
  rw [syncState_analyzeProject files a]

/-- Membership in the reverse map after the reverse-edge fold of one symbol
insertion. -/
theorem mem_revFold (fullName : String) (deps : List String) :
    ∀ (rd : SMap (List String)) (a b : String),
    a ∈ ((smapGet (deps.foldl
        (fun rd dep => smapSet rd dep (lsInsert ((smapGet rd dep).getD []) fullName)) rd) b).getD [])
      ↔ a ∈ ((smapGet rd b).getD []) ∨ (a = fullName ∧ b ∈ deps) := by
  induction deps with
  | nil => simp
  | cons dep tl ih =>
    intro rd a b
    rw [List.foldl_cons, ih]
    rw [smapGet_smapSet]
    by_cases hb : b = dep
    · subst hb
      rw [if_pos rfl]
      simp only [Option.getD_some]
      constructor
      · rintro (h | ⟨rfl, h⟩)
        · rcases mem_lsInsert.mp h with h2 | rfl
          · exact Or.inl h2
          · exact Or.inr ⟨rfl, List.mem_cons_self _ _⟩
        · exact Or.inr ⟨rfl, List.mem_cons_of_mem _ h⟩
      · rintro (h | ⟨rfl, h⟩)
        · exact Or.inl (mem_lsInsert.mpr (Or.inl h))
        · rcases List.mem_cons.mp h with _ | h2
          · exact Or.inl (mem_lsInsert.mpr (Or.inr rfl))
          · exact Or.inr ⟨rfl, h2⟩
    · rw [if_neg hb]
      constructor
      · rintro (h | ⟨rfl, h⟩)
        · exact Or.inl h
        · exact Or.inr ⟨rfl, List.mem_cons_of_mem _ h⟩
      · rintro (h | ⟨rfl, h⟩)
        · exact Or.inl h
        · rcases List.mem_cons.mp h with h2 | h2
          · exact absurd h2 hb
          · exact Or.inr ⟨rfl, h2⟩

/-- Membership in the reverse map after one symbol insertion. -/
theorem mem_getDependents_insertSymbolEntry (fn : String) (st : ProjectSymbolTableState)
    (s : SymbolInfo) (a b : String) :
    a ∈ getDependents (insertSymbolEntry fn st s) b ↔
      a ∈ getDependents st b ∨ (a = fn ++ (":") ++ s.name ∧ b ∈ s.dependencies) := by
  simp only [getDependents, insertSymbolEntry]
  exact mem_revFold _ _ _ _ _

/-- Membership in the reverse map after one file insertion. -/
theorem mem_getDependents_addFileSymbols (st : ProjectSymbolTableState) (fs : FileSymbols)
    (a b : String) :
    a ∈ getDependents (addFileSymbols st fs) b ↔
      a ∈ getDependents st b
      ∨ ∃ s ∈ symbolsOfFile fs, a = fs.fileName ++ (":") ++ s.name ∧ b ∈ s.dependencies := by
  unfold addFileSymbols
  have hgen : ∀ (syms : List SymbolInfo) (st0 : ProjectSymbolTableState),
      a ∈ getDependents (syms.foldl (insertSymbolEntry fs.fileName) st0) b ↔
        a ∈ getDependents st0 b
        ∨ ∃ s ∈ syms, a = fs.fileName ++ (":") ++ s.name ∧ b ∈ s.dependencies := by
    intro syms
    induction syms with
    | nil => simp
    | cons s tl ih =>
      intro st0
      rw [List.foldl_cons, ih, mem_getDependents_insertSymbolEntry]
      simp only [List.mem_cons]
      constructor
      · rintro ((h | h) | ⟨s2, hs2, h2⟩)
        · exact Or.inl h
        · exact Or.inr ⟨s, Or.inl rfl, h⟩
        · exact Or.inr ⟨s2, Or.inr hs2, h2⟩
      · rintro (h | ⟨s2, (rfl | hs2), h2⟩)
        · exact Or.inl (Or.inl h)
        · exact Or.inl (Or.inr h2)
        · exact Or.inr ⟨s2, hs2, h2⟩
  rw [hgen]
  rfl

/-- Membership in the reverse map of the assembled project: exactly the
insertions that listed `b` among their dependencies. -/
theorem mem_getDependents_analyzeProject (files : List FileSymbols) (a b : String) :
    a ∈ getDependents (analyzeProject files) b ↔
      ∃ e ∈ insertedEntries files, a = e.1 ∧ b ∈ e.2.dependencies := by
  unfold analyzeProject
  have h : ∀ st, a ∈ getDependents (files.foldl addFileSymbols st) b ↔
      a ∈ getDependents st b ∨ ∃ e ∈ insertedEntries files, a = e.1 ∧ b ∈ e.2.dependencies := by
    induction files with
    | nil => simp [insertedEntries]
    | cons fs tl ih =>
      intro st
      rw [List.foldl_cons, ih, mem_getDependents_addFileSymbols]
      have h2 : ∀ e, e ∈ insertedEntries (fs :: tl)
          ↔ e ∈ fileEntries fs ∨ e ∈ insertedEntries tl := by
        intro e
        simp [insertedEntries]
      constructor
      · rintro ((h | ⟨s, hs, h1, h2m⟩) | ⟨e, he, h1, h2m⟩)
        · exact Or.inl h
        · refine Or.inr ⟨(fs.fileName ++ (":") ++ s.name, s), ?_, h1, h2m⟩
          rw [h2]
          exact Or.inl (List.mem_map.mpr ⟨s, hs, rfl⟩)
        · exact Or.inr ⟨e, (h2 e).mpr (Or.inr he), h1, h2m⟩
      · rintro (h | ⟨e, he, h1, h2m⟩)
        · exact Or.inl (Or.inl h)
        · rcases (h2 e).mp he with he | he
          · rcases List.mem_map.mp he with ⟨s, hs, rfl⟩
            exact Or.inl (Or.inr ⟨s, hs, h1, h2m⟩)
          · exact Or.inr ⟨e, he, h1, h2m⟩
  rw [h createProjectSymbolTable]
  simp [getDependents, createProjectSymbolTable, smapGet]

/-!
Membership in the unused set, and in the reverse-closure traversal.
-/

/-- Membership in the filtering fold of `findUnusedSymbols`. -/
theorem mem_unused_foldl (used : List String) :
    ∀ (l acc : List String) (x : String),
    x ∈ l.foldl (fun acc s => if s ∈ used then acc else lsInsert acc s) acc ↔
      x ∈ acc ∨ (x ∈ l ∧ x ∉ used) := by
  intro l
  induction l with
  | nil => simp
  | cons s t ih =>
    intro acc x
    rw [List.foldl_cons, ih]
    by_cases hs : s ∈ used
    · rw [if_pos hs]
      constructor
      · rintro (h | ⟨h1, h2⟩)
        · exact Or.inl h
        · exact Or.inr ⟨List.mem_cons_of_mem _ h1, h2⟩
      · rintro (h | ⟨h1, h2⟩)
        · exact Or.inl h
        · rcases List.mem_cons.mp h1 with rfl | h1
          · exact absurd hs h2
          · exact Or.inr ⟨h1, h2⟩
    · rw [if_neg hs]
      constructor
      · rintro (h | ⟨h1, h2⟩)
        · rcases mem_lsInsert.mp h with h | rfl
          · exact Or.inl h
          · exact Or.inr ⟨List.mem_cons_self _ _, hs⟩
        · exact Or.inr ⟨List.mem_cons_of_mem _ h1, h2⟩
      · rintro (h | ⟨h1, h2⟩)
        · exact Or.inl (mem_lsInsert.mpr (Or.inl h))
        · rcases List.mem_cons.mp h1 with rfl | h1
          · exact Or.inl (mem_lsInsert.mpr (Or.inr rfl))
          · exact Or.inr ⟨h1, h2⟩

/-- The unused set is exactly the registered ids outside the closure. -/
theorem mem_findUnusedSymbols (st : ProjectSymbolTableState) (roots : List String)
    (x : String) :
    x ∈ findUnusedSymbols st roots ↔
      x ∈ smapKeys st.globalSymbols ∧ x ∉ calculateClosure st roots := by
  unfold findUnusedSymbols
  rw [mem_unused_foldl]
  simp

/-- The reverse-closure traversal never loses what was already collected. -/
theorem mem_collectDependentsAux_of_mem (st : ProjectSymbolTableState) :
    ∀ (fuel : Nat) (s : String) (acc : List String) (x : String),
    x ∈ acc → x ∈ collectDependentsAux st fuel acc s := by
  intro fuel
  induction fuel with
  | zero =>
    intro s acc x hx
    exact mem_lsInsert.mpr (Or.inl hx)
  | succ f ih =>
    intro s acc x hx
    rw [collectDependentsAux]
    have hstart : x ∈ lsInsert acc s := mem_lsInsert.mpr (Or.inl hx)
    revert hstart
    generalize lsInsert acc s = acc0
    induction getDependents st s generalizing acc0 with
    | nil =>
      intro h
      exact h
    | cons d tl ihl =>
      intro h
      rw [List.foldl_cons]
      apply ihl
      by_cases hd : d ∈ acc0
      · rw [if_pos hd]
        exact h
      · rw [if_neg hd]
        exact ih d acc0 x h

/-- The start symbol always ends up in the collected reverse closure. -/
theorem self_mem_collectDependentsAux (st : ProjectSymbolTableState)
    (fuel : Nat) (acc : List String) (s : String) :
    s ∈ collectDependentsAux st fuel acc s := by
  cases fuel with
  | zero => exact mem_lsInsert.mpr (Or.inr rfl)
  | succ f =>
    rw [collectDependentsAux]
    have hstart : s ∈ lsInsert acc s := mem_lsInsert.mpr (Or.inr rfl)
    revert hstart
    generalize lsInsert acc s = acc0
    induction getDependents st s generalizing acc0 with
    | nil =>
      intro h
      exact h
    | cons d tl ihl =>
      intro h
      rw [List.foldl_cons]
      apply ihl
      by_cases hd : d ∈ acc0
      · rw [if_pos hd]
        exact h
      · rw [if_neg hd]
        exact mem_collectDependentsAux_of_mem st f d acc0 s h

/-!
Soundness of the dependency walk: every emitted id stems from an identifier
occurrence the walker actually visits.
-/

/-- Whatever `visitIdent` adds beyond the accumulator is the id computed for
its identifier. -/
theorem visitIdent_sub (ctx : DepContext) (acc : List String) (n id : String)
    (hmem : id ∈ visitIdent ctx acc n) :
    id ∈ acc ∨ ∃ d, smapGet ctx.resolve n = some d ∧ id = symbolIdFor ctx.imports d n := by
  unfold visitIdent at hmem
  cases hcase : smapGet ctx.resolve n with
  | none =>
    rw [hcase] at hmem
    exact Or.inl hmem
  | some decl =>
    rw [hcase] at hmem
    simp only [] at hmem
    split_ifs at hmem
    case _ => exact Or.inl hmem
    case _ => exact Or.inl hmem
    case _ => exact Or.inl hmem
    case _ => exact Or.inl hmem
    case _ => exact Or.inl hmem
    case _ => exact Or.inl hmem
    case _ => exact Or.inl hmem
    case _ =>
      rcases mem_lsInsert.mp hmem with h | rfl
      · exact Or.inl h
      · exact Or.inr ⟨decl, rfl, rfl⟩

/-- Every id the walk emits is the id computed for some visited identifier
occurrence; identifiers in property position are never among them. -/
theorem collectDependencies_sub (ctx : DepContext) :
    ∀ (node : TsNode) (acc : List String) (id : String),
    id ∈ collectDependencies ctx acc node →
    id ∈ acc ∨ ∃ n ∈ visitedIdents node,
      ∃ d, smapGet ctx.resolve n = some d ∧ id = symbolIdFor ctx.imports d n := by
  intro node
  induction node with
  | nodeNil =>
    intro acc id h
    exact Or.inl h
  | nodeCons hd tl ihh iht =>
    intro acc id h
    rcases iht _ _ h with h | ⟨n, hn, d, hd1, hd2⟩
    · rcases ihh _ _ h with h | ⟨n, hn, d, hd1, hd2⟩
      · exact Or.inl h
      · exact Or.inr ⟨n, by simp [visitedIdents, hn], d, hd1, hd2⟩
    · exact Or.inr ⟨n, by simp [visitedIdents, hn], d, hd1, hd2⟩
  | ident n =>
    intro acc id h
    rcases visitIdent_sub ctx acc n id h with h | ⟨d, hd1, hd2⟩
    · exact Or.inl h
    · exact Or.inr ⟨n, by simp [visitedIdents], d, hd1, hd2⟩
  | strLit v =>
    intro acc id h
    exact Or.inl h
  | propAccess obj p iho =>
    intro acc id h
    rcases iho _ _ h with h | ⟨n, hn, d, hd1, hd2⟩
    · exact Or.inl h
    · exact Or.inr ⟨n, by simpa [visitedIdents] using hn, d, hd1, hd2⟩
  | typeRef tn args iha =>
    intro acc id h
    rcases iha _ _ h with h | ⟨n, hn, d, hd1, hd2⟩
    · exact Or.inl h
    · exact Or.inr ⟨n, by simpa [visitedIdents] using hn, d, hd1, hd2⟩
  | callExpr f args ihf iha =>
    intro acc id h
    rcases iha _ _ h with h | ⟨n, hn, d, hd1, hd2⟩
    · rcases ihf _ _ h with h | ⟨n, hn, d, hd1, hd2⟩
      · exact Or.inl h
      · exact Or.inr ⟨n, by simp [visitedIdents, hn], d, hd1, hd2⟩
    · exact Or.inr ⟨n, by simp [visitedIdents, hn], d, hd1, hd2⟩
  | newExpr f args ihf iha =>
    intro acc id h
    rcases iha _ _ h with h | ⟨n, hn, d, hd1, hd2⟩
    · rcases ihf _ _ h with h | ⟨n, hn, d, hd1, hd2⟩
      · exact Or.inl h
      · exact Or.inr ⟨n, by simp [visitedIdents, hn], d, hd1, hd2⟩
    · exact Or.inr ⟨n, by simp [visitedIdents, hn], d, hd1, hd2⟩
  | objectProp p v ihv =>
    intro acc id h
    rcases ihv _ _ h with h | ⟨n, hn, d, hd1, hd2⟩
    · exact Or.inl h
    · exact Or.inr ⟨n, by simpa [visitedIdents] using hn, d, hd1, hd2⟩
  | varDeclStmt n0 init ihi =>
    intro acc id h
    rcases ihi _ _ h with h | ⟨n, hn, d, hd1, hd2⟩
    · rcases visitIdent_sub ctx acc n0 id h with h | ⟨d, hd1, hd2⟩
      · exact Or.inl h
      · exact Or.inr ⟨n0, by simp [visitedIdents], d, hd1, hd2⟩
    · exact Or.inr ⟨n, by simp [visitedIdents, hn], d, hd1, hd2⟩
  | funcDeclStmt n0 body ihb =>
    intro acc id h
    rcases ihb _ _ h with h | ⟨n, hn, d, hd1, hd2⟩
    · rcases visitIdent_sub ctx acc n0 id h with h | ⟨d, hd1, hd2⟩
      · exact Or.inl h
      · exact Or.inr ⟨n0, by simp [visitedIdents], d, hd1, hd2⟩
    · exact Or.inr ⟨n, by simp [visitedIdents, hn], d, hd1, hd2⟩
  | arrowFn params body ihp ihb =>
    intro acc id h
    rcases ihb _ _ h with h | ⟨n, hn, d, hd1, hd2⟩
    · rcases ihp _ _ h with h | ⟨n, hn, d, hd1, hd2⟩
      · exact Or.inl h
      · exact Or.inr ⟨n, by simp [visitedIdents, hn], d, hd1, hd2⟩
    · exact Or.inr ⟨n, by simp [visitedIdents, hn], d, hd1, hd2⟩

/-!
Claim theorems.
-/

/-- C1, counterexample: in scenario S3 the forward closure from `index:main`
does not contain `types:User` (nor, by the amended theorem, any of the
interface symbols the claim lists), so the claimed seven-symbol containment
fails on the code. -/
theorem c1_s3_closure_missing_interface : ("types:User") ∉ s3Closure := by
  decide

/-- C1, amended: for every imported name the resolver's dependency id
coincides with the id the exporting file's symbol is registered under (each
emitted dependency of the S3 table resolves in the global table), and the
forward closure from `index:main` consists of exactly the five value-level
symbols; the interface symbols `types:User` and `types:ApiResponse` are
absent because the resolver drops every reference whose declaration is an
interface, type alias, or class. -/
theorem c1_s3_cross_file_identity_amended :
    s3Closure = [("index:main"), ("api:fetchUser"), ("api:processUser"),
      ("utils:validateRole"), ("utils:formatUserName")]
    ∧ (∀ a ∈ smapKeys s3Table.globalSymbols,
        ∀ d ∈ getDependencies s3Table a, (getSymbol s3Table d).isSome) := by
  decide

/-- C2, counterexample: in the assembled S3 table the edge
`index:main → api:fetchUser` exists, yet the stored symbol for
`api:fetchUser` has an empty `dependents` set — the fourth view of the edge
relation is never populated. -/
theorem c2_dependents_never_populated :
    ("api:fetchUser") ∈ getDependencies s3Table ("index:main")
    ∧ (getSymbol s3Table ("api:fetchUser")).map SymbolInfo.dependents = some [] := by
  decide

/-- C2, amended: after project analysis, forward edges, per-symbol
dependencies, and reverse edges are three consistent views of the edge
relation (given that each id is inserted once), but each stored symbol's
`dependents` set remains exactly as extraction created it — empty — so the
claimed fourth view holds only for symbols without dependents. -/
theorem c2_edge_views_amended (files : List FileSymbols) (a b : String)
    (hnodup : ((insertedEntries files).map Prod.fst).Nodup)
    (hdeps0 : ∀ e ∈ insertedEntries files, e.2.dependents = []) :
    (b ∈ getDependencies (analyzeProject files) a ↔
      ∃ s, getSymbol (analyzeProject files) a = some s ∧ b ∈ s.dependencies)
    ∧ (b ∈ getDependencies (analyzeProject files) a ↔
      a ∈ getDependents (analyzeProject files) b)
    ∧ (∀ s, getSymbol (analyzeProject files) b = some s → s.dependents = []) := by
  have hview : b ∈ getDependencies (analyzeProject files) a ↔
      ∃ s, getSymbol (analyzeProject files) a = some s ∧ b ∈ s.dependencies := by
    rw [getDependencies_eq_symbol_dependencies]
    cases h : getSymbol (analyzeProject files) a with
    | none => simp
    | some s => simp
  refine ⟨hview, ?_, ?_⟩
  · rw [hview, mem_getDependents_analyzeProject]
    constructor
    · rintro ⟨s, hs, hb⟩
      rw [getSymbol_analyzeProject] at hs
      refine ⟨(a, s), ?_, rfl, hb⟩
      exact (lookupLast_eq_some_of_nodup hnodup).mpr hs
    · rintro ⟨e, he, rfl, hb⟩
      refine ⟨e.2, ?_, hb⟩
      rw [getSymbol_analyzeProject]
      exact (lookupLast_eq_some_of_nodup hnodup).mp (by cases e; exact he)
  · intro s hs
    rw [getSymbol_analyzeProject] at hs
    exact hdeps0 (b, s) ((lookupLast_eq_some_of_nodup hnodup).mpr hs)

/-- Witness for the C2 amended theorem at the S3 project and the edge
`index:main → api:fetchUser`. -/
theorem c2_edge_views_amended_witness :
    (((insertedEntries s3Files).map Prod.fst).Nodup
      ∧ ∀ e ∈ insertedEntries s3Files, e.2.dependents = [])
    ∧ ((("api:fetchUser") ∈ getDependencies (analyzeProject s3Files) ("index:main") ↔
        ∃ s, getSymbol (analyzeProject s3Files) ("index:main") = some s
          ∧ ("api:fetchUser") ∈ s.dependencies)
      ∧ (("api:fetchUser") ∈ getDependencies (analyzeProject s3Files) ("index:main") ↔
        ("index:main") ∈ getDependents (analyzeProject s3Files) ("api:fetchUser"))
      ∧ (∀ s, getSymbol (analyzeProject s3Files) ("api:fetchUser") = some s →
          s.dependents = [])) :=
  ⟨⟨by decide, by decide⟩,
    c2_edge_views_amended s3Files ("index:main") ("api:fetchUser") (by decide) (by decide)⟩

/-- C3, counterexample: re-inserting a file whose id `f:a` already exists
neither fails nor leaves the table unchanged — the global entry is silently
replaced by the new symbol. -/
theorem c3_duplicate_insert_overwrites :
    getSymbol c3St1 ("f:a") = some c3SymOld
    ∧ getSymbol c3St2 ("f:a") = some c3SymNew
    ∧ c3SymNew ≠ c3SymOld := by
  decide

/-- C3, amended: `addFileSymbols` is total — there is no duplicate-id check
and no `DuplicateSymbol` error — and inserting a file registers its symbol
under `<file_key>:<name>` unconditionally, overwriting any existing entry
for that id. -/
theorem c3_insert_total_amended (st : ProjectSymbolTableState) (fs : FileSymbols)
    (s : SymbolInfo) (h : symbolsOfFile fs = [s]) :
    getSymbol (addFileSymbols st fs) (fs.fileName ++ (":") ++ s.name) = some s := by
  unfold addFileSymbols
  rw [h, List.foldl_cons, List.foldl_nil, getSymbol_insertSymbolEntry, if_pos rfl]

/-- Witness for the C3 amended theorem: re-inserting over the table that
already holds `f:a`. -/
theorem c3_insert_total_amended_witness :
    symbolsOfFile c3File2 = [c3SymNew]
    ∧ getSymbol (addFileSymbols c3St1 c3File2)
        (c3File2.fileName ++ (":") ++ c3SymNew.name) = some c3SymNew :=
  ⟨by decide, c3_insert_total_amended c3St1 c3File2 c3SymNew (by decide)⟩

/-- C4: evaluating the resolver at the failing input. The value-position
class reference `new C()` produces no dependency, while the identically
placed function reference `g()` does — the resolver drops a reference
whenever its declaration is a class, regardless of the referring position,
against the documented type-position-only policy. -/
theorem c4_class_value_reference_dropped :
    c4DepsClass = []
    ∧ c4DepsFn = [("app:g")]
    ∧ smapGet c4Resolve ("C")
        = some { kind := DeclKind.classDecl, fileName := "app" } := by
  decide

/-- C5, counterexample: with an empty table and the unresolved entry
`ghost:x`, the union of included and unused contains `ghost:x`, which is not
a symbol of the table — the claimed equality with `all_symbols` fails. -/
theorem c5_union_not_all_symbols :
    ¬ (∀ x, (x ∈ c5ShakeGhost.includedSymbols ∨ x ∈ c5ShakeGhost.unusedSymbols)
        ↔ x ∈ smapKeys c5ShakeGhost.symbolTable.globalSymbols) := by
  intro h
  have h2 := (h ("ghost:x")).mp (Or.inl (by decide))
  exact absurd h2 (by decide)

/-- C5, amended: for any entry list the included and unused sets are
disjoint, and their union is `all_symbols ∪ included` — it equals
`all_symbols` exactly when every id retained in the closure (in particular
every unresolved entry) is a registered symbol. -/
theorem c5_partition_amended (files : List FileSymbols) (entries : List String)
    (x : String) :
    ¬ (x ∈ (performTreeShaking files entries).includedSymbols
        ∧ x ∈ (performTreeShaking files entries).unusedSymbols)
    ∧ ((x ∈ (performTreeShaking files entries).includedSymbols
        ∨ x ∈ (performTreeShaking files entries).unusedSymbols)
      ↔ (x ∈ smapKeys (performTreeShaking files entries).symbolTable.globalSymbols
        ∨ x ∈ (performTreeShaking files entries).includedSymbols)) := by
  have hunused : ∀ y, y ∈ (performTreeShaking files entries).unusedSymbols ↔
      y ∈ smapKeys (analyzeProject files).globalSymbols
      ∧ y ∉ calculateClosure (analyzeProject files)
            (calculateClosure (analyzeProject files) entries) := by
    intro y
    exact mem_findUnusedSymbols _ _ y
  have hincl : ∀ y, y ∈ (performTreeShaking files entries).includedSymbols ↔
      y ∈ calculateClosure (analyzeProject files) entries := fun _ => Iff.rfl
  constructor
  · rintro ⟨h1, h2⟩
    rw [hunused] at h2
    exact h2.2 ((mem_closure_closure _ _ _).mpr ((hincl x).mp h1))
  · constructor
    · rintro (h | h)
      · exact Or.inr h
      · exact Or.inl ((hunused x).mp h).1
    · rintro (h | h)
      · by_cases hx : x ∈ (performTreeShaking files entries).includedSymbols
        · exact Or.inl hx
        · refine Or.inr ((hunused x).mpr ⟨h, ?_⟩)
          intro hc
          exact hx ((hincl x).mpr ((mem_closure_closure _ _ _).mp hc))
      · exact Or.inl h

/-- C6, counterexample: two runs over the same S3 analysis whose clock reads
differ produce different JSON report bytes — the report embeds the
generation timestamp, so it is not a pure function of the analysis result. -/
theorem c6_json_report_depends_on_clock :
    generateJSONReport s3Shake ("2024-01-01T00:00:00.000Z")
      ≠ generateJSONReport s3Shake ("2024-01-01T00:00:01.000Z") := by
  decide

/-- C6, amended: the adjacency-list report is a pure function of the result
(two runs over identical inputs are byte-identical), and the JSON report is
a pure function of the result and the clock reading — two runs are
byte-identical whenever their timestamps coincide. -/
theorem c6_reports_deterministic_amended (r : TreeShakingResult) (t1 t2 : String)
    (h : t1 = t2) :
    generateJSONReport r t1 = generateJSONReport r t2
    ∧ generateAdjacencyListReport r = generateAdjacencyListReport r := by
  rw [h]
  exact ⟨rfl, rfl⟩

/-- Witness for the C6 amended theorem at the S3 result. -/
theorem c6_reports_deterministic_amended_witness :
    ("2024-01-01T00:00:00.000Z") = ("2024-01-01T00:00:00.000Z")
    ∧ (generateJSONReport s3Shake ("2024-01-01T00:00:00.000Z")
        = generateJSONReport s3Shake ("2024-01-01T00:00:00.000Z")
      ∧ generateAdjacencyListReport s3Shake = generateAdjacencyListReport s3Shake) :=
  ⟨rfl, c6_reports_deterministic_amended s3Shake ("2024-01-01T00:00:00.000Z")
    ("2024-01-01T00:00:00.000Z") rfl⟩

/-- C7, counterexample: after inserting only the S3 `index` file, the id
`api:fetchUser` occurs in `index:main`'s dependencies and in the reverse
map, but no symbol with that id exists in the global table — a dangling
edge. -/
theorem c7_dangling_edge :
    ("api:fetchUser") ∈ getDependencies c7Table ("index:main")
    ∧ ("index:main") ∈ getDependents c7Table ("api:fetchUser")
    ∧ getSymbol c7Table ("api:fetchUser") = none := by
  decide

/-- C7, amended: what does hold after any sequence of insertions is the
converse direction — every id occurring as a member of a reverse-edge set
(a dependent) is a registered symbol of the global table; reverse-edge keys
and dependency-set members may dangle, as the counterexample shows. -/
theorem c7_reverse_members_registered_amended (files : List FileSymbols) (a b : String)
    (h : a ∈ getDependents (analyzeProject files) b) :
    (getSymbol (analyzeProject files) a).isSome := by
  rcases (mem_getDependents_analyzeProject files a b).mp h with ⟨e, he, rfl, _⟩
  rw [getSymbol_analyzeProject]
  cases hc : lookupLast (insertedEntries files) e.1 with
  | some v => rfl
  | none =>
    exfalso
    exact (lookupLast_eq_none_iff _ _).mp hc (List.mem_map.mpr ⟨e, he, rfl⟩)

/-- Witness for the C7 amended theorem at the S3 project. -/
theorem c7_reverse_members_registered_amended_witness :
    ("index:main") ∈ getDependents (analyzeProject s3Files) ("api:fetchUser")
    ∧ (getSymbol (analyzeProject s3Files) ("index:main")).isSome :=
  ⟨by decide, c7_reverse_members_registered_amended s3Files ("index:main")
    ("api:fetchUser") (by decide)⟩

/-- C8: the forward closure distributes over union of root lists and is
idempotent, as sets of ids. -/
theorem c8_closure_union_and_idempotent (st : ProjectSymbolTableState)
    (s t : List String) (x : String) :
    (x ∈ calculateClosure st (s ++ t) ↔
      x ∈ calculateClosure st s ∨ x ∈ calculateClosure st t)
    ∧ (x ∈ calculateClosure st (calculateClosure st s) ↔
      x ∈ calculateClosure st s) := by
  constructor
  · rw [mem_calculateClosure, mem_calculateClosure, mem_calculateClosure]
    constructor
    · rintro ⟨r, hr, hreach⟩
      rcases List.mem_append.mp hr with hr | hr
      · exact Or.inl ⟨r, hr, hreach⟩
      · exact Or.inr ⟨r, hr, hreach⟩
    · rintro (⟨r, hr, hreach⟩ | ⟨r, hr, hreach⟩)
      · exact ⟨r, List.mem_append.mpr (Or.inl hr), hreach⟩
      · exact ⟨r, List.mem_append.mpr (Or.inr hr), hreach⟩
  · exact mem_closure_closure st s x

/-- C9: every id the dependency walk emits is the id computed for an
identifier occurrence outside property position (the property name of a
property access is never visited), and in particular a body returning
`obj.x` where `obj` resolves to a parameter yields no dependencies at all. -/
theorem c9_property_access_not_dependency :
    (∀ (ctx : DepContext) (node : TsNode) (acc : List String) (id : String),
      id ∈ collectDependencies ctx acc node →
      id ∈ acc ∨ ∃ n ∈ visitedIdents node,
        ∃ d, smapGet ctx.resolve n = some d ∧ id = symbolIdFor ctx.imports d n)
    ∧ (∀ (imports : SMap ImportInfo) (resolve : SMap ResolvedDecl)
        (selfName : Option String) (currentFile : String)
        (opts : SymbolExtractionOptions) (obj x : String) (d : ResolvedDecl),
        smapGet resolve obj = some d → d.kind = DeclKind.parameterDecl →
        findSymbolDependencies (nlist [TsNode.propAccess (TsNode.ident obj) x])
          imports resolve selfName currentFile opts = []) := by
  constructor
  · intro ctx node acc id h
    exact collectDependencies_sub ctx node acc id h
  · intro imports resolve selfName currentFile opts obj x d hres hkind
    rcases d with ⟨dk, df⟩
    simp only [] at hkind
    subst hkind
    have hred : findSymbolDependencies (nlist [TsNode.propAccess (TsNode.ident obj) x])
        imports resolve selfName currentFile opts
        = visitIdent
            { imports := imports, resolve := resolve, localFunctions := []
              localVariables := [], selfName := selfName, currentFile := currentFile
              opts := opts } [] obj := rfl
    rw [hred]
    unfold visitIdent
    rw [hres]
    simp only []
    split_ifs <;> rfl

/-- Witness for C9 at the S1-shaped input `return q.x` with `q` a
parameter. -/
theorem c9_property_access_not_dependency_witness :
    smapGet [(("q"), ({ kind := DeclKind.parameterDecl, fileName := "test" } : ResolvedDecl))]
        ("q") = some { kind := DeclKind.parameterDecl, fileName := "test" }
    ∧ findSymbolDependencies (nlist [TsNode.propAccess (TsNode.ident ("q")) ("x")])
        [] [(("q"), { kind := DeclKind.parameterDecl, fileName := "test" })]
        (some ("getX")) ("test") defaultExtractionOptions = [] :=
  ⟨by decide,
    c9_property_access_not_dependency.2 []
      [(("q"), { kind := DeclKind.parameterDecl, fileName := "test" })]
      (some ("getX")) ("test") defaultExtractionOptions ("q") ("x")
      { kind := DeclKind.parameterDecl, fileName := "test" } (by decide) rfl⟩

/-- C10: the impact analysis always lists the target id itself among
`allDependents`, so `impactCount` is at least one for every input — with or
without a symbol or any dependents for that id — while `directDependents`
is exactly the stored reverse-edge set of the id. -/
theorem c10_impact_analysis_includes_target (st : ProjectSymbolTableState) (id : String) :
    id ∈ (calculateImpactAnalysis id st).allDependents
    ∧ 1 ≤ (calculateImpactAnalysis id st).impactCount
    ∧ (calculateImpactAnalysis id st).directDependents = getDependents st id := by
  refine ⟨self_mem_collectDependentsAux st (impactFuel st) [] id, ?_, rfl⟩
  have h := self_mem_collectDependentsAux st (impactFuel st) [] id
  exact List.length_pos.mpr (List.ne_nil_of_mem h)
